import Mathlib

/-!
Verification of the DNA-analysis variant generator.

The repository has two Python files:
* `core.py` — mutation generators (`single_mutations`, `double_mutations`,
  `triple_mutations_sampled`, `del1`, `del2`) and the orchestrator
  `process_sequence`.
* `sl-connection.py` — a Streamlit front end with its own exhaustive
  generators `_replace_k_mutations` and `_delete_k_mutations` and a run
  block that post-processes the results of `process_sequence`.

Python strings are embedded as `List Char`.  The process-wide random
generator is embedded as an explicit source `RandSrc`: a stream of
mutation draws (for the rejection-sampling loop of
`triple_mutations_sampled`) and a stream of fill characters (for
`random.choices(BASES, k=n)`).  The rejection-sampling loop is embedded
with explicit fuel and returns `none` when the fuel runs out, so
`process_sequence` returns `Option (Except PyErr ProcResult)`:
`none` models divergence, `some (.error e)` a raised exception and
`some (.ok r)` a normal return.
-/

/-- `BASES = ["A", "T", "C", "G"]` from `core.py` (the same list is
duplicated in `sl-connection.py`). -/
def BASES : List Char := ['A', 'T', 'C', 'G']

/-- ASCII model of Python `str.upper` on a single character. -/
def upperChar (c : Char) : Char :=
  if 'a' ≤ c ∧ c ≤ 'z' then Char.ofNat (c.toNat - 32) else c

/-- Python `str.upper` applied to a whole string. -/
def pyUpper (s : List Char) : List Char := s.map upperChar

/-- Exceptions raised by the embedded code: `ValueError` (with message)
and `IndexError` (from `core_list[0]` on an empty list). -/
inductive PyErr where
  | valueError (msg : String) : PyErr
  | indexError : PyErr
deriving DecidableEq, Repr

/-- The dictionary returned by `process_sequence`:
`{"sequences": ..., "core_only": ..., "report": ...}`. -/
structure ProcResult where
  sequences : List (List Char)
  core_only : List (List Char)
  report : List String
deriving DecidableEq, Repr

/-- One iteration's worth of randomness for the sampling loop of
`triple_mutations_sampled`: the sorted output of
`sorted(random.sample(range(len(seq)), 3))` and the three characters
chosen by `random.choice([b for b in BASES if b != seq[p]])`. -/
structure Draw where
  pos : List Nat
  bases : List Char
deriving DecidableEq, Repr

/-- Explicit embedding of Python's process-wide `random` generator:
a stream of sampling draws and a stream of fill characters. -/
structure RandSrc where
  draws : Nat → Draw
  fills : Nat → Char

/-- `itertools.combinations(l, k)` (lexicographic order, as emitted by
Python for a sorted input list). -/
def combinations : Nat → List Nat → List (List Nat)
  | 0, _ => [[]]
  | _ + 1, [] => []
  | k + 1, x :: xs => ((combinations k xs).map (fun c => x :: c)) ++ combinations (k + 1) xs

/-- `itertools.product(*ls)` (first list varies slowest, as in Python). -/
def pyProduct : List (List Char) → List (List Char)
  | [] => [[]]
  | l :: ls => l.flatMap (fun x => (pyProduct ls).map (fun t => x :: t))

/-- `for p, new in zip(pos, bs): tmp[p] = new` on a copy of `s`. -/
def applySubs : List Char → List Nat → List Char → List Char
  | s, [], _ => s
  | s, _ :: _, [] => s
  | s, p :: ps, b :: bs => applySubs (s.set p b) ps bs

/-- Apply one sampling draw, as the loop body of
`triple_mutations_sampled` does. -/
def applyDraw (s : List Char) (d : Draw) : List Char :=
  applySubs s d.pos d.bases

/-- `single_mutations` from `core.py`:
`[seq[:i] + b + seq[i+1:] for i, orig in enumerate(seq) for b in BASES if b != orig]`. -/
def single_mutations (seq : List Char) : List (List Char) :=
  (List.range seq.length).flatMap (fun i =>
    ((BASES.filter (fun b => decide (b ≠ seq.getD i ' '))).map (fun b =>
      seq.take i ++ [b] ++ seq.drop (i + 1))))

/-- `double_mutations` from `core.py`: for every `i < j`
(`itertools.combinations(range(len(seq)), 2)`), every `b_i ≠ seq[i]` and
every `b_j ≠ seq[j]`, emit `seq[:i] + b_i + seq[i+1:j] + b_j + seq[j+1:]`. -/
def double_mutations (seq : List Char) : List (List Char) :=
  (combinations 2 (List.range seq.length)).flatMap (fun pq =>
    match pq with
    | [i, j] =>
      (BASES.filter (fun b => decide (b ≠ seq.getD i ' '))).flatMap (fun bi =>
        (BASES.filter (fun b => decide (b ≠ seq.getD j ' '))).map (fun bj =>
          seq.take i ++ [bi] ++ ((seq.take j).drop (i + 1)) ++ [bj] ++ seq.drop (j + 1)))
    | _ => [])

/-- The state-machine core of the `while len(seen) < sample_size` loop of
`triple_mutations_sampled`.  `seen` is the insertion-ordered key list of
the `OrderedDict`; `i` indexes the draw stream; the explicit fuel turns
the (probabilistically terminating) loop into a total function. -/
def tripleAux (seq : List Char) (target : Nat) (draws : Nat → Draw) :
    Nat → Nat → List (List Char) → Option (List (List Char))
  | 0, _, seen => if target ≤ seen.length then some seen else none
  | fuel + 1, i, seen =>
    if target ≤ seen.length then some seen
    else
      let s := applyDraw seq (draws i)
      tripleAux seq target draws fuel (i + 1) (if s ∈ seen then seen else seen ++ [s])

/-- `triple_mutations_sampled` from `core.py`:
`upper = len(list(itertools.combinations(range(len(seq)), 3))) * 27`;
`sample_size = min(sample_size, upper)`; then the rejection-sampling
loop accumulating distinct strings in insertion order. -/
def triple_mutations_sampled (seq : List Char) (sample_size : Nat) (rs : RandSrc)
    (fuel : Nat) : Option (List (List Char)) :=
  let upper := (combinations 3 (List.range seq.length)).length * 3 ^ 3
  tripleAux seq (min sample_size upper) rs.draws fuel 0 []

/-- `del1` from `core.py`: `[seq[:i] + seq[i+1:] for i in range(len(seq))]`. -/
def del1 (seq : List Char) : List (List Char) :=
  (List.range seq.length).map (fun i => seq.take i ++ seq.drop (i + 1))

/-- `del2` from `core.py`: `[seq[:i] + seq[i+1:j] + seq[j+1:]
for i, j in itertools.combinations(range(len(seq)), 2)]`. -/
def del2 (seq : List Char) : List (List Char) :=
  (combinations 2 (List.range seq.length)).map (fun pq =>
    match pq with
    | [i, j] => seq.take i ++ ((seq.take j).drop (i + 1)) ++ seq.drop (j + 1)
    | _ => seq)

/-- `process_sequence` from `core.py`.  Python defaults are
`keep_length=True`, `delete_fill_side="5"`, `sample_size=44424`;
callers of the embedding pass them explicitly.  The result is `none`
when the sampling loop of the `triple` mode runs out of fuel,
`some (.error e)` when the corresponding Python call raises `e`, and
`some (.ok r)` when it returns `r`. -/
def process_sequence (seq primer_f primer_r : List Char) (mut_type : String)
    (keep_length : Bool) (delete_fill_side : String) (sample_size : Nat)
    (rs : RandSrc) (fuel : Nat) : Option (Except PyErr ProcResult) :=
  let seq := pyUpper seq
  let primer_f := pyUpper primer_f
  let primer_r := pyUpper primer_r
  let core? : Option (Except PyErr (List (List Char))) :=
    if mut_type = "single" then some (Except.ok (single_mutations seq))
    else if mut_type = "double" then some (Except.ok (double_mutations seq))
    else if mut_type = "triple" then
      (triple_mutations_sampled seq sample_size rs fuel).map Except.ok
    else if mut_type = "del1" then some (Except.ok (del1 seq))
    else if mut_type = "del2" then some (Except.ok (del2 seq))
    else some (Except.error (PyErr.valueError "Unsupported mutation type"))
  match core? with
  | none => none
  | some (Except.error e) => some (Except.error e)
  | some (Except.ok core_list0) =>
    let padded : Except PyErr (List (List Char)) :=
      if (mut_type = "del1" ∨ mut_type = "del2") ∧ keep_length = true then
        match core_list0.head? with
        | none => Except.error PyErr.indexError
        | some c0 =>
          let n_del := ((c0.length : Int) - (seq.length : Int)).natAbs
          let fill_seq := (List.range n_del).map rs.fills
          if delete_fill_side = "5" then
            Except.ok (core_list0.map (fun c => fill_seq ++ c))
          else
            Except.ok (core_list0.map (fun c => c ++ fill_seq))
      else Except.ok core_list0
    match padded with
    | Except.error e => some (Except.error e)
    | Except.ok core_list =>
      let full_list := core_list.map (fun c => primer_f ++ c ++ primer_r)
      let report := (List.range full_list.length).map (fun i =>
        mut_type ++ "_" ++ toString (i + 1))
      some (Except.ok ⟨full_list, core_list, report⟩)

/-- `_replace_k_mutations` from `sl-connection.py`: exhaustive
simultaneous replacement of `k` bases. -/
def replace_k_mutations (seq : List Char) (k : Nat) : List (List Char) :=
  (combinations k (List.range seq.length)).flatMap (fun pos =>
    (pyProduct (pos.map (fun p => BASES.filter (fun b => decide (b ≠ seq.getD p ' '))))).map
      (fun new_bases => applySubs seq pos new_bases))

/-- `del new_seq[p] for p in sorted(pos_tuple, reverse=True)`:
delete the given ascending positions from highest to lowest. -/
def deleteAll (seq : List Char) (pos : List Nat) : List Char :=
  pos.reverse.foldl (fun s p => s.eraseIdx p) seq

/-- `_delete_k_mutations` from `sl-connection.py`: exhaustive
simultaneous deletion of `k` bases. -/
def delete_k_mutations (seq : List Char) (k : Nat) : List (List Char) :=
  (combinations k (List.range seq.length)).map (fun pos => deleteAll seq pos)

/-- `random.sample(l, n)`: simple random sampling without replacement,
embedded as indexing by a caller-supplied list of draw indices (the
validity conditions — distinct, in range, of length `n` — are
hypotheses of the theorems that use it). -/
def pySample (l : List (List Char)) (idxs : List Nat) : List (List Char) :=
  idxs.map (fun i => l.getD i [])

/-- The two options of the `mut_type` select box of `sl-connection.py`. -/
inductive UIMode where
  | replace : UIMode
  | delete : UIMode
deriving DecidableEq, Repr

/-- The string value carried by the select box. -/
def uiModeName : UIMode → String
  | UIMode.replace => "replace"
  | UIMode.delete => "delete"

/-- The run block of `sl-connection.py` (the body of
`if st.button("生成突变序列")`), together with the input preprocessing
`st.text_area(...).replace("\n", "").upper()`.  `st.stop()` on an empty
sequence is modelled as `none`.  The block generates its own core list,
samples it down when it exceeds `sample_size`, calls `process_sequence`
with the dummy mode `"del1"` and `keep_length=True`, and overwrites all
three fields of the result with its own lists, using the primers
exactly as entered. -/
def uiRun (seqRaw primer_f primer_r : List Char) (mut_type : UIMode)
    (count sample_size : Nat) (idxs : List Nat) (delete_fill_side : String)
    (rs : RandSrc) (fuel : Nat) : Option (Except PyErr ProcResult) :=
  let seq := pyUpper (seqRaw.filter (fun c => decide (c ≠ '\n')))
  if seq = [] then none
  else
    let core0 :=
      match mut_type with
      | UIMode.replace => replace_k_mutations seq count
      | UIMode.delete => delete_k_mutations seq count
    let core_list := if sample_size < core0.length then pySample core0 idxs else core0
    match process_sequence seq primer_f primer_r "del1" true delete_fill_side
        sample_size rs fuel with
    | some (Except.ok _res) =>
      some (Except.ok
        ⟨core_list.map (fun c => primer_f ++ c ++ primer_r),
         core_list,
         (List.range core_list.length).map (fun i =>
           uiModeName mut_type ++ "_k" ++ toString count ++ "_" ++ toString (i + 1))⟩)
    | other => other


-- Equality of embedded Python results is decidable (used to evaluate
-- the embedding on concrete inputs).
deriving instance DecidableEq for Except

/-- A concrete random source: the constant draw `([0,1,2], "TAA")` and
constant fill base `A`. -/
def rsA : RandSrc := ⟨fun _ => ⟨[0, 1, 2], ['T', 'A', 'A']⟩, fun _ => 'A'⟩

/-- A second concrete random source, different from `rsA`. -/
def rsB : RandSrc := ⟨fun _ => ⟨[0, 1, 2], ['C', 'A', 'A']⟩, fun _ => 'T'⟩

/-- All 27 valid draws on the sequence `"ATG"`. -/
def drawsATG : List Draw :=
  (pyProduct [BASES.filter (fun b => decide (b ≠ 'A')),
    BASES.filter (fun b => decide (b ≠ 'T')),
    BASES.filter (fun b => decide (b ≠ 'G'))]).map (fun bs => ⟨[0, 1, 2], bs⟩)

/-- A fair (cyclic) random source for the sequence `"ATG"`: it keeps
enumerating all 27 valid draws forever. -/
def rsFair : RandSrc := ⟨fun k => drawsATG.getD (k % drawsATG.length) ⟨[], []⟩, fun _ => 'A'⟩


/-- The ascending list of positions (below `seq.length`) at which `t`
differs from `seq`. -/
def diffPositions (seq t : List Char) : List Nat :=
  (List.range seq.length).filter (fun q => decide (t.getD q ' ' ≠ seq.getD q ' '))

/-- `t` is a length-preserving variant of `seq` differing at exactly `k`
positions, every differing position holding one of the four bases. -/
def IsMutant (seq t : List Char) (k : Nat) : Prop :=
  t.length = seq.length ∧ (diffPositions seq t).length = k ∧
  ∀ q, q < seq.length → t.getD q ' ' ≠ seq.getD q ' ' → t.getD q ' ' ∈ BASES

/-- The valid-substitution hypotheses satisfied by every
position/replacement pair the generators produce. -/
structure ValidSubst (seq : List Char) (ps : List Nat) (bs : List Char) : Prop where
  sorted : ps.Pairwise (· < ·)
  lt : ∀ p ∈ ps, p < seq.length
  len : bs.length = ps.length
  ne : ∀ i, i < ps.length → bs.getD i ' ' ≠ seq.getD (ps.getD i 0) ' '

/-- What `random.sample(range(len(seq)), 3)` (sorted) together with the
three `random.choice([b for b in BASES if b != seq[p]])` calls can
produce: three ascending positions inside the sequence and, for each,
one of the four bases other than the original one. -/
def ValidDraw (seq : List Char) (d : Draw) : Prop :=
  List.Pairwise (· < ·) d.pos ∧ d.pos.length = 3 ∧ d.bases.length = 3 ∧
  (∀ p ∈ d.pos, p < seq.length) ∧
  ∀ i, i < 3 → d.bases.getD i ' ' ∈ BASES ∧
    d.bases.getD i ' ' ≠ seq.getD (d.pos.getD i 0) ' '

instance (seq : List Char) (d : Draw) : Decidable (ValidDraw seq d) :=
  inferInstanceAs (Decidable (List.Pairwise (· < ·) d.pos ∧ d.pos.length = 3 ∧
    d.bases.length = 3 ∧ (∀ p ∈ d.pos, p < seq.length) ∧
    ∀ i, i < 3 → d.bases.getD i ' ' ∈ BASES ∧
      d.bases.getD i ' ' ≠ seq.getD (d.pos.getD i 0) ' '))

/-- Fairness of the draw stream: every valid draw keeps occurring.  This
is the almost-sure behaviour of `random.sample` / `random.choice`. -/
def FairDraws (seq : List Char) (draws : Nat → Draw) : Prop :=
  ∀ d, ValidDraw seq d → ∀ N, ∃ k, N ≤ k ∧ draws k = d

/-! ### Character-case lemmas -/

theorem Char.toNat_ofNat_valid (n : Nat) (h : n.isValidChar) : (Char.ofNat n).toNat = n := by
  unfold Char.ofNat
  rw [dif_pos h]
  unfold Char.ofNatAux Char.toNat
  simp [UInt32.toNat]

theorem char_le_iff_toNat {a b : Char} : a ≤ b ↔ a.toNat ≤ b.toNat := by
  rw [Char.le_def]
  rfl

theorem upperChar_toNat_of_lower {c : Char} (h : 'a' ≤ c ∧ c ≤ 'z') :
    (upperChar c).toNat = c.toNat - 32 := by
  have h1 : 97 ≤ c.toNat := char_le_iff_toNat.mp h.1
  have h2 : c.toNat ≤ 122 := char_le_iff_toNat.mp h.2
  unfold upperChar
  rw [if_pos h]
  exact Char.toNat_ofNat_valid _ (Or.inl (by omega))

theorem upperChar_idem (c : Char) : upperChar (upperChar c) = upperChar c := by
  by_cases h : 'a' ≤ c ∧ c ≤ 'z'
  · have ht := upperChar_toNat_of_lower h
    have h1 : 97 ≤ c.toNat := char_le_iff_toNat.mp h.1
    have h2 : c.toNat ≤ 122 := char_le_iff_toNat.mp h.2
    have ha : ('a').toNat = 97 := rfl
    have hne : ¬ ('a' ≤ upperChar c ∧ upperChar c ≤ 'z') := by
      intro hc
      have h3 := char_le_iff_toNat.mp hc.1
      rw [ha, ht] at h3
      omega
    rw [show upperChar (upperChar c) =
      if 'a' ≤ upperChar c ∧ upperChar c ≤ 'z' then Char.ofNat ((upperChar c).toNat - 32)
      else upperChar c from rfl, if_neg hne]
  · have hc : upperChar c = c := by
      unfold upperChar
      rw [if_neg h]
    rw [hc, hc]

theorem pyUpper_idem (s : List Char) : pyUpper (pyUpper s) = pyUpper s := by
  unfold pyUpper
  rw [List.map_map]
  exact List.map_congr_left (fun c _ => upperChar_idem c)

theorem upperChar_eq_newline_iff (c : Char) : upperChar c = '\n' ↔ c = '\n' := by
  constructor
  · intro h
    by_cases hl : 'a' ≤ c ∧ c ≤ 'z'
    · exfalso
      have ht := upperChar_toNat_of_lower hl
      have h1 : 97 ≤ c.toNat := char_le_iff_toNat.mp hl.1
      rw [h] at ht
      have : ('\n').toNat = 10 := rfl
      omega
    · rw [upperChar, if_neg hl] at h
      exact h
  · intro h
    subst h
    decide

/-! ### `getD` bridges and `applySubs` semantics -/

theorem getD_of_lt {α : Type} {l : List α} {i : Nat} (d : α) (h : i < l.length) :
    l.getD i d = l[i] := by
  rw [List.getD_eq_getElem?_getD, List.getElem?_eq_getElem h]
  rfl

theorem getD_set_self {s : List Char} {p : Nat} {b : Char} (d : Char) (h : p < s.length) :
    (s.set p b).getD p d = b := by
  rw [List.getD_eq_getElem?_getD, List.getElem?_set_self h]
  rfl

theorem getD_set_ne {s : List Char} {p q : Nat} {b : Char} (d : Char) (h : p ≠ q) :
    (s.set p b).getD q d = s.getD q d := by
  rw [List.getD_eq_getElem?_getD, List.getElem?_set_ne h, ← List.getD_eq_getElem?_getD]

theorem applySubs_length (ps : List Nat) (bs : List Char) (s : List Char) :
    (applySubs s ps bs).length = s.length := by
  induction ps generalizing s bs with
  | nil => simp [applySubs]
  | cons p ps ih =>
    cases bs with
    | nil => simp [applySubs]
    | cons b bs =>
      rw [applySubs, ih, List.length_set]

theorem applySubs_getD_notMem {ps : List Nat} {q : Nat} (bs : List Char) (s : List Char)
    (d : Char) (h : q ∉ ps) : (applySubs s ps bs).getD q d = s.getD q d := by
  induction ps generalizing s bs with
  | nil => simp [applySubs]
  | cons p ps ih =>
    cases bs with
    | nil => simp [applySubs]
    | cons b bs =>
      have hpq : p ≠ q := by
        intro hpq
        exact h (hpq ▸ List.mem_cons_self p ps)
      rw [applySubs, ih bs (s.set p b) (fun hq => h (List.mem_cons_of_mem p hq)),
        getD_set_ne d hpq]

theorem applySubs_getD_nth {ps : List Nat} {bs : List Char} {i : Nat} (s : List Char)
    (d b₀ : Char) (hnd : ps.Nodup) (h1 : i < ps.length) (h2 : i < bs.length)
    (h3 : ps.getD i 0 < s.length) :
    (applySubs s ps bs).getD (ps.getD i 0) d = bs.getD i b₀ := by
  induction ps generalizing s bs i with
  | nil => exact absurd h1 (by simp)
  | cons p ps ih =>
    cases bs with
    | nil => exact absurd h2 (by simp)
    | cons b bs =>
      cases i with
      | zero =>
        have hp : (p :: ps).getD 0 0 = p := rfl
        rw [hp] at h3 ⊢
        rw [applySubs, applySubs_getD_notMem bs _ d (List.nodup_cons.mp hnd).1,
          getD_set_self d h3]
        rfl
      | succ i =>
        have hp : (p :: ps).getD (i + 1) 0 = ps.getD i 0 := rfl
        rw [hp] at h3 ⊢
        rw [applySubs]
        have hlen : ps.getD i 0 < (s.set p b).length := by
          rw [List.length_set]
          exact h3
        have := ih (s.set p b) (List.nodup_cons.mp hnd).2
          (by simpa using h1) (by simpa using h2) hlen
        rw [this]
        rfl

/-! ### Theory of `combinations` (`itertools.combinations`) -/

theorem combinations_zero (l : List Nat) : combinations 0 l = [[]] := by
  cases l with
  | nil => rfl
  | cons x xs => rfl

theorem combinations_succ_nil (k : Nat) : combinations (k + 1) [] = [] := rfl

theorem combinations_succ_cons (k x : Nat) (xs : List Nat) :
    combinations (k + 1) (x :: xs) =
      ((combinations k xs).map (fun c => x :: c)) ++ combinations (k + 1) xs := rfl

theorem length_combinations (k : Nat) (l : List Nat) :
    (combinations k l).length = l.length.choose k := by
  induction l generalizing k with
  | nil =>
    cases k with
    | zero => rfl
    | succ k => rfl
  | cons x xs ih =>
    cases k with
    | zero => rfl
    | succ k =>
      rw [combinations, List.length_append, List.length_map, ih k, ih (k + 1)]
      rw [List.length_cons, Nat.choose_succ_succ]

theorem mem_combinations_sublist {k : Nat} {l c : List Nat} (h : c ∈ combinations k l) :
    c.Sublist l ∧ c.length = k := by
  induction l generalizing k c with
  | nil =>
    cases k with
    | zero =>
      rw [combinations_zero, List.mem_singleton] at h
      subst h
      exact ⟨List.nil_sublist [], rfl⟩
    | succ k => exact absurd h (by simp [combinations_succ_nil])
  | cons x xs ih =>
    cases k with
    | zero =>
      rw [combinations_zero, List.mem_singleton] at h
      subst h
      exact ⟨List.nil_sublist _, rfl⟩
    | succ k =>
      rw [combinations_succ_cons, List.mem_append] at h
      rcases h with h | h
      · rcases List.mem_map.mp h with ⟨c', hc', rfl⟩
        rcases ih hc' with ⟨hs, hl⟩
        exact ⟨List.Sublist.cons₂ x hs, by simp [hl]⟩
      · rcases ih h with ⟨hs, hl⟩
        exact ⟨List.Sublist.cons x hs, hl⟩

theorem sublist_mem_combinations {l c : List Nat} (h : c.Sublist l) :
    c ∈ combinations c.length l := by
  induction h with
  | slnil => exact List.mem_singleton.mpr rfl
  | @cons l₁ l₂ a h ih =>
    cases hc : l₁ with
    | nil =>
      subst hc
      simp [combinations_zero]
    | cons y c' =>
      subst hc
      rw [List.length_cons, combinations_succ_cons]
      exact List.mem_append_right _ (List.length_cons y c' ▸ ih)
  | @cons₂ c l a h ih =>
    rw [List.length_cons, combinations_succ_cons]
    exact List.mem_append_left _ (List.mem_map.mpr ⟨c, ih, rfl⟩)

theorem nodup_combinations {k : Nat} {l : List Nat} (h : l.Nodup) :
    (combinations k l).Nodup := by
  induction l generalizing k with
  | nil =>
    cases k with
    | zero => simp [combinations_zero]
    | succ k => simp [combinations_succ_nil]
  | cons x xs ih =>
    cases k with
    | zero => simp [combinations_zero]
    | succ k =>
      rw [combinations_succ_cons]
      rcases List.nodup_cons.mp h with ⟨hx, hxs⟩
      refine List.Nodup.append ?_ (ih hxs) ?_
      · exact (ih hxs).map (fun a b hab => (List.cons.injEq x a x b ▸ hab).2)
      · intro c hc1 hc2
        have hmem : x ∈ c := by
          rcases List.mem_map.mp hc1 with ⟨c', _, rfl⟩
          exact List.mem_cons_self x c'
        have hsub : c.Sublist xs := (mem_combinations_sublist hc2).1
        exact hx (hsub.subset hmem)

theorem combinations_range_pairwise {k n : Nat} {c : List Nat}
    (h : c ∈ combinations k (List.range n)) : c.Pairwise (· < ·) :=
  List.Pairwise.sublist (mem_combinations_sublist h).1 (List.pairwise_lt_range n)

theorem combinations_range_lt {k n : Nat} {c : List Nat}
    (h : c ∈ combinations k (List.range n)) : ∀ x ∈ c, x < n := fun x hx =>
  List.mem_range.mp ((mem_combinations_sublist h).1.subset hx)

/-! ### Strictly sorted lists of naturals -/

theorem pairwise_lt_nodup {l : List Nat} (h : l.Pairwise (· < ·)) : l.Nodup :=
  h.imp (fun hab => Nat.ne_of_lt hab)

theorem sorted_lt_eq_of_mem_iff :
    ∀ {l₁ l₂ : List Nat}, l₁.Pairwise (· < ·) → l₂.Pairwise (· < ·) →
    (∀ x, x ∈ l₁ ↔ x ∈ l₂) → l₁ = l₂ := by
  intro l₁ l₂ h1 h2 hmem
  have hperm : l₁.Perm l₂ := by
    rw [List.perm_ext_iff_of_nodup (pairwise_lt_nodup h1) (pairwise_lt_nodup h2)]
    exact hmem
  have anti : IsAntisymm Nat (· < ·) :=
    ⟨fun a b hab hba => absurd (Nat.lt_trans hab hba) (Nat.lt_irrefl a)⟩
  exact @List.eq_of_perm_of_sorted Nat (· < ·) anti l₁ l₂ hperm h1 h2

theorem filter_range_eq_sorted {n : Nat} {ps : List Nat} {pred : Nat → Bool}
    (hs : ps.Pairwise (· < ·)) (hlt : ∀ p ∈ ps, p < n)
    (hiff : ∀ q, q < n → (pred q = true ↔ q ∈ ps)) :
    (List.range n).filter pred = ps := by
  refine sorted_lt_eq_of_mem_iff ?_ hs ?_
  · exact List.Pairwise.sublist (List.filter_sublist (List.range n)) (List.pairwise_lt_range n)
  · intro x
    rw [List.mem_filter, List.mem_range]
    constructor
    · rintro ⟨hx, hp⟩
      exact (hiff x hx).mp hp
    · intro hx
      exact ⟨hlt x hx, (hiff x (hlt x hx)).mpr hx⟩

/-! ### Theory of `pyProduct` (`itertools.product`) -/

theorem sum_map_const_nat {α : Type} (l : List α) (n : Nat) :
    (l.map (fun _ => n)).sum = l.length * n := by
  induction l with
  | nil => simp
  | cons y l ihl =>
    rw [List.map_cons, List.sum_cons, ihl, List.length_cons]
    ring

theorem length_pyProduct (ls : List (List Char)) :
    (pyProduct ls).length = (ls.map List.length).prod := by
  induction ls with
  | nil => rfl
  | cons l ls ih =>
    rw [pyProduct, List.length_flatMap, List.map_cons, List.prod_cons, ← ih]
    have hmap : List.map (List.length ∘ fun x => (pyProduct ls).map (fun t => x :: t)) l
        = List.map (fun _ => (pyProduct ls).length) l := by
      refine List.map_congr_left ?_
      intro x _
      simp
    rw [hmap, sum_map_const_nat]

theorem mem_pyProduct {ls : List (List Char)} {bs : List Char} :
    bs ∈ pyProduct ls ↔ List.Forall₂ (fun b l => b ∈ l) bs ls := by
  induction ls generalizing bs with
  | nil =>
    rw [pyProduct, List.mem_singleton]
    constructor
    · rintro rfl
      exact List.Forall₂.nil
    · intro h
      cases h
      rfl
  | cons l ls ih =>
    rw [pyProduct, List.mem_flatMap]
    constructor
    · rintro ⟨x, hx, hbs⟩
      rcases List.mem_map.mp hbs with ⟨t, ht, rfl⟩
      exact List.Forall₂.cons hx (ih.mp ht)
    · intro h
      cases h with
      | cons hb ht => exact ⟨_, hb, List.mem_map.mpr ⟨_, ih.mpr ht, rfl⟩⟩

theorem nodup_pyProduct {ls : List (List Char)} (h : ∀ l ∈ ls, l.Nodup) :
    (pyProduct ls).Nodup := by
  induction ls with
  | nil => simp [pyProduct]
  | cons l ls ih =>
    rw [pyProduct, List.nodup_flatMap]
    constructor
    · intro x _
      refine (ih (fun l' hl' => h l' (List.mem_cons_of_mem l hl'))).map ?_
      intro a b hab
      exact (List.cons.injEq x a x b ▸ hab).2
    · have hl : l.Nodup := h l (List.mem_cons_self l ls)
      refine hl.imp ?_
      intro a b hab t hta htb
      rcases List.mem_map.mp hta with ⟨t1, _, rfl⟩
      rcases List.mem_map.mp htb with ⟨t2, _, heq⟩
      exact hab (List.cons.inj heq).1.symm

/-! ### Difference positions and mutants -/

theorem diffPositions_pairwise (seq t : List Char) :
    (diffPositions seq t).Pairwise (· < ·) :=
  List.Pairwise.sublist (List.filter_sublist (List.range seq.length))
    (List.pairwise_lt_range seq.length)

theorem diffPositions_lt (seq t : List Char) : ∀ q ∈ diffPositions seq t, q < seq.length :=
  fun q hq => List.mem_range.mp ((List.filter_sublist _).subset hq)

theorem mem_diffPositions {seq t : List Char} {q : Nat} :
    q ∈ diffPositions seq t ↔ q < seq.length ∧ t.getD q ' ' ≠ seq.getD q ' ' := by
  rw [diffPositions, List.mem_filter, List.mem_range, decide_eq_true_eq]

theorem forall₂_getD {R : Char → List Char → Prop} :
    ∀ {as : List Char} {bs : List (List Char)}, List.Forall₂ R as bs →
    ∀ (i : Nat) (d : Char) (d' : List Char), i < as.length → R (as.getD i d) (bs.getD i d')
  | _, _, List.Forall₂.cons hR hF, 0, _, _, _ => hR
  | _, _, List.Forall₂.cons _ hF, i + 1, d, d', h =>
    forall₂_getD hF i d d' (by simpa using h)

theorem diffPositions_applySubs {seq : List Char} {ps : List Nat} {bs : List Char}
    (v : ValidSubst seq ps bs) : diffPositions seq (applySubs seq ps bs) = ps := by
  refine filter_range_eq_sorted v.sorted v.lt ?_
  intro q hq
  rw [decide_eq_true_eq]
  by_cases hmem : q ∈ ps
  · rcases List.mem_iff_getElem.mp hmem with ⟨i, hi, hqi⟩
    have hqd : ps.getD i 0 = q := by
      rw [getD_of_lt 0 hi, hqi]
    constructor
    · intro _
      exact hmem
    · intro _
      have := applySubs_getD_nth seq ' ' ' ' (pairwise_lt_nodup v.sorted) hi
        (v.len ▸ hi) (hqd ▸ hq)
      rw [hqd] at this
      rw [this]
      have := v.ne i hi
      rw [hqd] at this
      exact this
  · rw [applySubs_getD_notMem bs seq ' ' hmem]
    constructor
    · intro h
      exact absurd rfl h
    · intro h
      exact absurd h hmem

theorem applySubs_isMutant {seq : List Char} {ps : List Nat} {bs : List Char}
    (v : ValidSubst seq ps bs) (hb : ∀ i, i < ps.length → bs.getD i ' ' ∈ BASES) :
    IsMutant seq (applySubs seq ps bs) ps.length := by
  refine ⟨applySubs_length ps bs seq, by rw [diffPositions_applySubs v], ?_⟩
  intro q hq hne
  have hmem : q ∈ ps := by
    have : q ∈ diffPositions seq (applySubs seq ps bs) :=
      mem_diffPositions.mpr ⟨hq, hne⟩
    rwa [diffPositions_applySubs v] at this
  rcases List.mem_iff_getElem.mp hmem with ⟨i, hi, hqi⟩
  have hqd : ps.getD i 0 = q := by
    rw [getD_of_lt 0 hi, hqi]
  have := applySubs_getD_nth seq ' ' ' ' (pairwise_lt_nodup v.sorted) hi (v.len ▸ hi)
    (hqd ▸ hq)
  rw [hqd] at this
  rw [this]
  exact hb i hi

/-- Reconstruction: a mutant is obtained by substituting its difference
positions with its own characters. -/
theorem isMutant_eq_applySubs {seq t : List Char} {k : Nat} (h : IsMutant seq t k) :
    applySubs seq (diffPositions seq t) ((diffPositions seq t).map (fun p => t.getD p ' ')) = t := by
  rcases h with ⟨hlen, _, _⟩
  set ps := diffPositions seq t with hps
  have v : ValidSubst seq ps (ps.map (fun p => t.getD p ' ')) :=
    { sorted := diffPositions_pairwise seq t
      lt := diffPositions_lt seq t
      len := by rw [List.length_map]
      ne := by
        intro i hi
        have hmem : ps.getD i 0 ∈ ps := by
          rw [getD_of_lt 0 hi]
          exact List.getElem_mem hi
        have hdq := (mem_diffPositions.mp (hps ▸ hmem)).2
        have hmap : (ps.map (fun p => t.getD p ' ')).getD i ' ' = t.getD (ps.getD i 0) ' ' := by
          rw [getD_of_lt ' ' (by rw [List.length_map]; exact hi), List.getElem_map,
            getD_of_lt 0 hi]
        rw [hmap]
        exact hdq }
  have hlen2 : (applySubs seq ps (ps.map (fun p => t.getD p ' '))).length = t.length := by
    rw [applySubs_length, hlen]
  refine List.ext_getElem hlen2 ?_
  intro q h₁ h₂
  have hqL : q < seq.length := by
    rw [applySubs_length] at h₁
    exact h₁
  rw [← getD_of_lt ' ' h₁, ← getD_of_lt ' ' h₂]
  by_cases hmem : q ∈ ps
  · rcases List.mem_iff_getElem.mp hmem with ⟨i, hi, hqi⟩
    have hqd : ps.getD i 0 = q := by
      rw [getD_of_lt 0 hi, hqi]
    have := applySubs_getD_nth seq ' ' ' ' (pairwise_lt_nodup v.sorted) hi (v.len ▸ hi)
      (hqd ▸ hqL)
    rw [hqd] at this
    rw [this]
    rw [getD_of_lt ' ' (by rw [List.length_map]; exact hi), List.getElem_map, hqi]
  · rw [applySubs_getD_notMem _ seq ' ' hmem]
    have : ¬ t.getD q ' ' ≠ seq.getD q ' ' := by
      intro hne
      exact hmem (hps ▸ mem_diffPositions.mpr ⟨hqL, hne⟩)
    exact (not_not.mp this).symm

/-! ### Characterization of `replace_k_mutations` -/

theorem prod_map_const_nat {α : Type} (l : List α) (n : Nat) :
    (l.map (fun _ => n)).prod = n ^ l.length := by
  induction l with
  | nil => simp
  | cons y l ihl =>
    rw [List.map_cons, List.prod_cons, ihl, List.length_cons]
    ring

theorem length_filter_BASES {c : Char} (h : c ∈ BASES) :
    (BASES.filter (fun b => decide (b ≠ c))).length = 3 := by
  simp only [BASES, List.mem_cons, List.not_mem_nil, or_false] at h
  rcases h with rfl | rfl | rfl | rfl <;> decide

theorem getD_mem_BASES {seq : List Char} (halpha : ∀ c ∈ seq, c ∈ BASES) {p : Nat}
    (h : p < seq.length) : seq.getD p ' ' ∈ BASES := by
  rw [getD_of_lt ' ' h]
  exact halpha _ (List.getElem_mem h)

theorem getD_map_of_lt {α β : Type} (f : α → β) (l : List α) (i : Nat) (d : β) (d₀ : α)
    (h : i < l.length) : (l.map f).getD i d = f (l.getD i d₀) := by
  rw [getD_of_lt d (by rw [List.length_map]; exact h), List.getElem_map, getD_of_lt d₀ h]

/-- The exhaustive `k`-substitution list has exactly `C(L,k) * 3^k`
entries. -/
theorem length_replace_k (seq : List Char) (k : Nat) (halpha : ∀ c ∈ seq, c ∈ BASES) :
    (replace_k_mutations seq k).length = seq.length.choose k * 3 ^ k := by
  rw [replace_k_mutations, List.length_flatMap]
  have hconst : List.map
      (List.length ∘ fun pos =>
        (pyProduct (pos.map (fun p => BASES.filter (fun b => decide (b ≠ seq.getD p ' '))))).map
          (fun new_bases => applySubs seq pos new_bases))
      (combinations k (List.range seq.length))
      = List.map (fun _ => 3 ^ k) (combinations k (List.range seq.length)) := by
    refine List.map_congr_left ?_
    intro pos hpos
    have hlen3 : pos.map (fun p => (BASES.filter (fun b => decide (b ≠ seq.getD p ' '))).length)
        = pos.map (fun _ => 3) := by
      refine List.map_congr_left ?_
      intro p hp
      exact length_filter_BASES (getD_mem_BASES halpha (combinations_range_lt hpos p hp))
    simp only [Function.comp_apply, List.length_map, length_pyProduct, List.map_map]
    rw [show (List.length ∘ fun p => BASES.filter (fun b => decide (b ≠ seq.getD p ' ')))
        = (fun p => (BASES.filter (fun b => decide (b ≠ seq.getD p ' '))).length) from rfl]
    rw [hlen3, prod_map_const_nat, (mem_combinations_sublist hpos).2]
  rw [hconst, sum_map_const_nat, length_combinations, List.length_range]

theorem validSubst_of_mem {seq : List Char} {k : Nat} {pos : List Nat} {nb : List Char}
    (hpos : pos ∈ combinations k (List.range seq.length))
    (hnb : nb ∈ pyProduct (pos.map (fun p => BASES.filter (fun b => decide (b ≠ seq.getD p ' '))))) :
    ValidSubst seq pos nb ∧ ∀ i, i < pos.length → nb.getD i ' ' ∈ BASES := by
  have hf := mem_pyProduct.mp hnb
  have hlen : nb.length = pos.length := by
    rw [hf.length_eq, List.length_map]
  have hget : ∀ i, i < pos.length →
      nb.getD i ' ' ∈ BASES.filter (fun b => decide (b ≠ seq.getD (pos.getD i 0) ' ')) := by
    intro i hi
    have := forall₂_getD hf i ' ' [] (hlen ▸ hi)
    rwa [getD_map_of_lt _ pos i [] 0 hi] at this
  constructor
  · refine ⟨combinations_range_pairwise hpos, combinations_range_lt hpos, hlen, ?_⟩
    intro i hi
    have := List.mem_filter.mp (hget i hi)
    exact (decide_eq_true_eq.mp this.2)
  · intro i hi
    exact (List.mem_filter.mp (hget i hi)).1

/-- Soundness: every entry of `replace_k_mutations seq k` is a mutant of
`seq` at exactly `k` positions. -/
theorem mem_replace_k_isMutant {seq t : List Char} {k : Nat}
    (h : t ∈ replace_k_mutations seq k) : IsMutant seq t k := by
  rw [replace_k_mutations, List.mem_flatMap] at h
  rcases h with ⟨pos, hpos, hmap⟩
  rcases List.mem_map.mp hmap with ⟨nb, hnb, rfl⟩
  rcases validSubst_of_mem hpos hnb with ⟨v, hb⟩
  have := applySubs_isMutant v hb
  rwa [(mem_combinations_sublist hpos).2] at this

/-- Completeness: every mutant of `seq` at exactly `k` positions occurs
in `replace_k_mutations seq k`. -/
theorem isMutant_mem_replace_k {seq t : List Char} {k : Nat}
    (h : IsMutant seq t k) : t ∈ replace_k_mutations seq k := by
  rcases h with ⟨hlen, hk, hbase⟩
  rw [replace_k_mutations, List.mem_flatMap]
  refine ⟨diffPositions seq t, ?_, ?_⟩
  · have := sublist_mem_combinations
      (List.filter_sublist (l := List.range seq.length)
        (p := fun q => decide (t.getD q ' ' ≠ seq.getD q ' ')))
    rw [show (List.filter (fun q => decide (t.getD q ' ' ≠ seq.getD q ' ')) (List.range seq.length))
        = diffPositions seq t from rfl] at this
    rwa [hk] at this
  · refine List.mem_map.mpr ⟨(diffPositions seq t).map (fun p => t.getD p ' '), ?_, ?_⟩
    · rw [mem_pyProduct, List.forall₂_map_left_iff, List.forall₂_map_right_iff]
      rw [List.forall₂_same]
      intro p hp
      rcases mem_diffPositions.mp hp with ⟨hpL, hpne⟩
      exact List.mem_filter.mpr ⟨hbase p hpL hpne, decide_eq_true_eq.mpr hpne⟩
    · exact isMutant_eq_applySubs ⟨hlen, hk, hbase⟩

theorem mem_replace_k_iff {seq t : List Char} {k : Nat} :
    t ∈ replace_k_mutations seq k ↔ IsMutant seq t k :=
  ⟨mem_replace_k_isMutant, isMutant_mem_replace_k⟩

/-- The exhaustive `k`-substitution list has no duplicates. -/
theorem nodup_replace_k (seq : List Char) (k : Nat) :
    (replace_k_mutations seq k).Nodup := by
  rw [replace_k_mutations, List.nodup_flatMap]
  constructor
  · intro pos hpos
    refine List.Nodup.map_on ?_ ?_
    · intro nb₁ h₁ nb₂ h₂ heq
      rcases validSubst_of_mem hpos h₁ with ⟨v₁, _⟩
      rcases validSubst_of_mem hpos h₂ with ⟨v₂, _⟩
      refine List.ext_getElem (by rw [v₁.len, v₂.len]) ?_
      intro i hi₁ hi₂
      have hip : i < pos.length := v₁.len ▸ hi₁
      have hpd : pos.getD i 0 < seq.length := by
        refine v₁.lt _ ?_
        rw [getD_of_lt 0 hip]
        exact List.getElem_mem hip
      have e₁ := applySubs_getD_nth seq ' ' ' ' (pairwise_lt_nodup v₁.sorted) hip hi₁ hpd
      have e₂ := applySubs_getD_nth seq ' ' ' ' (pairwise_lt_nodup v₂.sorted) hip hi₂ hpd
      rw [← getD_of_lt ' ' hi₁, ← getD_of_lt ' ' hi₂, ← e₁, ← e₂, heq]
    · refine nodup_pyProduct ?_
      intro l hl
      rcases List.mem_map.mp hl with ⟨p, _, rfl⟩
      exact List.Nodup.filter _ (by decide)
  · have hnd : (combinations k (List.range seq.length)).Nodup :=
      nodup_combinations (List.nodup_range seq.length)
    refine List.Pairwise.imp_of_mem ?_ hnd
    intro pos₁ pos₂ hm₁ hm₂ hne t ht₁ ht₂
    rcases List.mem_map.mp ht₁ with ⟨nb₁, h₁, heq₁⟩
    rcases List.mem_map.mp ht₂ with ⟨nb₂, h₂, heq₂⟩
    rcases validSubst_of_mem hm₁ h₁ with ⟨v₁, _⟩
    rcases validSubst_of_mem hm₂ h₂ with ⟨v₂, _⟩
    have e₁ : diffPositions seq t = pos₁ := heq₁ ▸ diffPositions_applySubs v₁
    have e₂ : diffPositions seq t = pos₂ := heq₂ ▸ diffPositions_applySubs v₂
    exact hne (e₁ ▸ e₂)

/-! ### Validity of sampling draws and the loop invariants -/

theorem validDraw_isMutant {seq : List Char} {d : Draw} (h : ValidDraw seq d) :
    IsMutant seq (applyDraw seq d) 3 := by
  rcases h with ⟨hpair, hp3, hb3, hlt, hbase⟩
  have v : ValidSubst seq d.pos d.bases :=
    { sorted := hpair
      lt := hlt
      len := by rw [hp3, hb3]
      ne := by
        intro i hi
        exact (hbase i (hp3 ▸ hi)).2 }
  have := applySubs_isMutant v (fun i hi => (hbase i (hp3 ▸ hi)).1)
  rwa [hp3] at this

theorem isMutant_validDraw {seq t : List Char} (h : IsMutant seq t 3) :
    ∃ d, ValidDraw seq d ∧ applyDraw seq d = t := by
  refine ⟨⟨diffPositions seq t, (diffPositions seq t).map (fun p => t.getD p ' ')⟩, ?_, ?_⟩
  · rcases h with ⟨hlen, hk, hbase⟩
    refine ⟨diffPositions_pairwise seq t, hk,
      by rw [List.length_map, hk], diffPositions_lt seq t, ?_⟩
    intro i hi
    have hip : i < (diffPositions seq t).length := hk ▸ hi
    have hmem : (diffPositions seq t).getD i 0 ∈ diffPositions seq t := by
      rw [getD_of_lt 0 hip]
      exact List.getElem_mem hip
    rcases mem_diffPositions.mp hmem with ⟨hqL, hqne⟩
    rw [getD_map_of_lt _ _ i ' ' 0 hip]
    exact ⟨hbase _ hqL hqne, hqne⟩
  · exact isMutant_eq_applySubs h

/-- Invariant of the sampling loop: when it returns, the accumulator has
grown to exactly `target` pairwise-distinct mutants. -/
theorem tripleAux_spec {seq : List Char} {target : Nat} {draws : Nat → Draw}
    (hvalid : ∀ k, ValidDraw seq (draws k)) :
    ∀ (fuel i : Nat) (seen out : List (List Char)), seen.Nodup →
    (∀ s ∈ seen, IsMutant seq s 3) → seen.length ≤ target →
    tripleAux seq target draws fuel i seen = some out →
    out.length = target ∧ out.Nodup ∧ ∀ s ∈ out, IsMutant seq s 3 := by
  intro fuel
  induction fuel with
  | zero =>
    intro i seen out hnd hmut hle heq
    rw [tripleAux] at heq
    by_cases h : target ≤ seen.length
    · rw [if_pos h] at heq
      cases heq
      exact ⟨Nat.le_antisymm hle h, hnd, hmut⟩
    · rw [if_neg h] at heq
      cases heq
  | succ fuel ih =>
    intro i seen out hnd hmut hle heq
    rw [tripleAux] at heq
    by_cases h : target ≤ seen.length
    · rw [if_pos h] at heq
      cases heq
      exact ⟨Nat.le_antisymm hle h, hnd, hmut⟩
    · rw [if_neg h] at heq
      by_cases hmem : applyDraw seq (draws i) ∈ seen
      · simp only [if_pos hmem] at heq
        exact ih (i + 1) seen out hnd hmut hle heq
      · simp only [if_neg hmem] at heq
        refine ih (i + 1) (seen ++ [applyDraw seq (draws i)]) out ?_ ?_ ?_ heq
        · rw [List.nodup_append]
          exact ⟨hnd, List.nodup_singleton _, by simpa using hmem⟩
        · intro s hs
          rcases List.mem_append.mp hs with hs | hs
          · exact hmut s hs
          · rw [List.mem_singleton.mp hs]
            exact validDraw_isMutant (hvalid i)
        · rw [List.length_append, List.length_singleton]
          omega

/-- Termination of the rejection-sampling loop: as long as the target is
at most the number `C(L,3) * 27` of distinct triple mutants, a fair draw
stream always reaches it. -/
theorem tripleAux_terminates {seq : List Char} {target : Nat} {draws : Nat → Draw}
    (halpha : ∀ c ∈ seq, c ∈ BASES)
    (hfair : FairDraws seq draws)
    (htarget : target ≤ seq.length.choose 3 * 3 ^ 3) :
    ∀ (seen : List (List Char)) (i : Nat), seen.Nodup →
    ∃ fuel out, tripleAux seq target draws fuel i seen = some out := by
  have hcard : ((replace_k_mutations seq 3).toFinset).card = seq.length.choose 3 * 3 ^ 3 := by
    rw [List.toFinset_card_of_nodup (nodup_replace_k seq 3), length_replace_k seq 3 halpha]
  suffices H : ∀ (m : Nat) (seen : List (List Char)) (i : Nat), seen.Nodup →
      target - seen.length = m →
      ∃ fuel out, tripleAux seq target draws fuel i seen = some out by
    intro seen i hnd
    exact H (target - seen.length) seen i hnd rfl
  intro m
  induction m using Nat.strong_induction_on with
  | _ m IH =>
    intro seen i hnd hm
    by_cases hle : target ≤ seen.length
    · exact ⟨0, seen, by rw [tripleAux, if_pos hle]⟩
    · have hlt : seen.length < target := Nat.lt_of_not_le hle
      have hex : ∃ t, t ∈ replace_k_mutations seq 3 ∧ t ∉ seen := by
        by_contra hcon
        push_neg at hcon
        have hsub : (replace_k_mutations seq 3).toFinset ⊆ seen.toFinset := by
          intro t ht
          exact List.mem_toFinset.mpr (hcon t (List.mem_toFinset.mp ht))
        have h1 := Finset.card_le_card hsub
        have h2 := List.toFinset_card_le seen
        omega
      rcases hex with ⟨t, htmem, htnot⟩
      rcases isMutant_validDraw (mem_replace_k_isMutant htmem) with ⟨d, hd, happ⟩
      rcases hfair d hd i with ⟨k, hik, hdk⟩
      -- once any new string is appended, the measure drops strictly and
      -- the strong induction hypothesis finishes the run
      have grown : ∀ (i'' : Nat) (s : List Char), s ∉ seen →
          ∃ fuel out, tripleAux seq target draws fuel i'' (seen ++ [s]) = some out := by
        intro i'' s hs
        by_cases hle2 : target ≤ (seen ++ [s]).length
        · exact ⟨0, seen ++ [s], by rw [tripleAux, if_pos hle2]⟩
        · refine IH (target - (seen.length + 1)) (by omega) (seen ++ [s]) i'' ?_ ?_
          · rw [List.nodup_append]
            exact ⟨hnd, List.nodup_singleton _, by simpa using hs⟩
          · rw [List.length_append, List.length_singleton]
      -- one unfolding of the loop from an unfinished state
      have step : ∀ (i' fuel : Nat) (out : List (List Char)),
          tripleAux seq target draws fuel (i' + 1)
            (if applyDraw seq (draws i') ∈ seen then seen
             else seen ++ [applyDraw seq (draws i')]) = some out →
          tripleAux seq target draws (fuel + 1) i' seen = some out := by
        intro i' fuel out h
        rw [tripleAux, if_neg hle]
        exact h
      -- walk the stream from `i` to `k`: every step either grows the
      -- accumulator (handled by `grown`) or leaves it unchanged, and at
      -- index `k` the draw produces the fresh mutant `t`
      have inner : ∀ (j i' : Nat), i' ≤ k → k - i' = j →
          ∃ fuel out, tripleAux seq target draws fuel i' seen = some out := by
        intro j
        induction j with
        | zero =>
          intro i' hik' hj
          have hik2 : i' = k := by omega
          subst hik2
          have hs : applyDraw seq (draws i') = t := by rw [hdk, happ]
          rcases grown (i' + 1) t htnot with ⟨fuel, out, hout⟩
          refine ⟨fuel + 1, out, step i' fuel out ?_⟩
          rw [hs, if_neg htnot]
          exact hout
        | succ j ihj =>
          intro i' hik' hj
          by_cases hmem : applyDraw seq (draws i') ∈ seen
          · rcases ihj (i' + 1) (by omega) (by omega) with ⟨fuel, out, hout⟩
            refine ⟨fuel + 1, out, step i' fuel out ?_⟩
            rw [if_pos hmem]
            exact hout
          · rcases grown (i' + 1) (applyDraw seq (draws i')) hmem with ⟨fuel, out, hout⟩
            refine ⟨fuel + 1, out, step i' fuel out ?_⟩
            rw [if_neg hmem]
            exact hout
      exact inner (k - i) i hik rfl

/-! ### Unfolding `process_sequence` mode by mode -/

theorem process_sequence_single_eq (seq primer_f primer_r : List Char) (ks : Bool)
    (side : String) (n : Nat) (rs : RandSrc) (fuel : Nat) :
    process_sequence seq primer_f primer_r "single" ks side n rs fuel =
      some (Except.ok
        ⟨(single_mutations (pyUpper seq)).map
            (fun c => pyUpper primer_f ++ c ++ pyUpper primer_r),
         single_mutations (pyUpper seq),
         (List.range ((single_mutations (pyUpper seq)).map
            (fun c => pyUpper primer_f ++ c ++ pyUpper primer_r)).length).map
            (fun i => "single" ++ "_" ++ toString (i + 1))⟩) := rfl

theorem process_sequence_double_eq (seq primer_f primer_r : List Char) (ks : Bool)
    (side : String) (n : Nat) (rs : RandSrc) (fuel : Nat) :
    process_sequence seq primer_f primer_r "double" ks side n rs fuel =
      some (Except.ok
        ⟨(double_mutations (pyUpper seq)).map
            (fun c => pyUpper primer_f ++ c ++ pyUpper primer_r),
         double_mutations (pyUpper seq),
         (List.range ((double_mutations (pyUpper seq)).map
            (fun c => pyUpper primer_f ++ c ++ pyUpper primer_r)).length).map
            (fun i => "double" ++ "_" ++ toString (i + 1))⟩) := rfl

theorem process_sequence_triple_eq (seq primer_f primer_r : List Char) (ks : Bool)
    (side : String) (n : Nat) (rs : RandSrc) (fuel : Nat) :
    process_sequence seq primer_f primer_r "triple" ks side n rs fuel =
      (triple_mutations_sampled (pyUpper seq) n rs fuel).map (fun core_list =>
        Except.ok
          ⟨core_list.map (fun c => pyUpper primer_f ++ c ++ pyUpper primer_r),
           core_list,
           (List.range (core_list.map
              (fun c => pyUpper primer_f ++ c ++ pyUpper primer_r)).length).map
              (fun i => "triple" ++ "_" ++ toString (i + 1))⟩) := by
  cases h : triple_mutations_sampled (pyUpper seq) n rs fuel with
  | none => simp [process_sequence, h]
  | some l => simp [process_sequence, h]

theorem process_sequence_del1_nokeep_eq (seq primer_f primer_r : List Char)
    (side : String) (n : Nat) (rs : RandSrc) (fuel : Nat) :
    process_sequence seq primer_f primer_r "del1" false side n rs fuel =
      some (Except.ok
        ⟨(del1 (pyUpper seq)).map
            (fun c => pyUpper primer_f ++ c ++ pyUpper primer_r),
         del1 (pyUpper seq),
         (List.range ((del1 (pyUpper seq)).map
            (fun c => pyUpper primer_f ++ c ++ pyUpper primer_r)).length).map
            (fun i => "del1" ++ "_" ++ toString (i + 1))⟩) := rfl

theorem process_sequence_del2_nokeep_eq (seq primer_f primer_r : List Char)
    (side : String) (n : Nat) (rs : RandSrc) (fuel : Nat) :
    process_sequence seq primer_f primer_r "del2" false side n rs fuel =
      some (Except.ok
        ⟨(del2 (pyUpper seq)).map
            (fun c => pyUpper primer_f ++ c ++ pyUpper primer_r),
         del2 (pyUpper seq),
         (List.range ((del2 (pyUpper seq)).map
            (fun c => pyUpper primer_f ++ c ++ pyUpper primer_r)).length).map
            (fun i => "del2" ++ "_" ++ toString (i + 1))⟩) := rfl

theorem process_sequence_del1_keep_eq (seq primer_f primer_r : List Char) (side : String)
    (n : Nat) (rs : RandSrc) (fuel : Nat) (c0 : List Char)
    (hhead : (del1 (pyUpper seq)).head? = some c0) :
    process_sequence seq primer_f primer_r "del1" true side n rs fuel =
      (let fill := (List.range
          (((c0.length : Int) - ((pyUpper seq).length : Int)).natAbs)).map rs.fills
       let core := if side = "5" then (del1 (pyUpper seq)).map (fun c => fill ++ c)
                   else (del1 (pyUpper seq)).map (fun c => c ++ fill)
       some (Except.ok
        ⟨core.map (fun c => pyUpper primer_f ++ c ++ pyUpper primer_r), core,
         (List.range (core.map
            (fun c => pyUpper primer_f ++ c ++ pyUpper primer_r)).length).map
            (fun i => "del1" ++ "_" ++ toString (i + 1))⟩)) := by
  by_cases hside : side = "5" <;> simp [process_sequence, hhead, hside]

theorem process_sequence_del2_keep_eq (seq primer_f primer_r : List Char) (side : String)
    (n : Nat) (rs : RandSrc) (fuel : Nat) (c0 : List Char)
    (hhead : (del2 (pyUpper seq)).head? = some c0) :
    process_sequence seq primer_f primer_r "del2" true side n rs fuel =
      (let fill := (List.range
          (((c0.length : Int) - ((pyUpper seq).length : Int)).natAbs)).map rs.fills
       let core := if side = "5" then (del2 (pyUpper seq)).map (fun c => fill ++ c)
                   else (del2 (pyUpper seq)).map (fun c => c ++ fill)
       some (Except.ok
        ⟨core.map (fun c => pyUpper primer_f ++ c ++ pyUpper primer_r), core,
         (List.range (core.map
            (fun c => pyUpper primer_f ++ c ++ pyUpper primer_r)).length).map
            (fun i => "del2" ++ "_" ++ toString (i + 1))⟩)) := by
  by_cases hside : side = "5" <;> simp [process_sequence, hhead, hside]

theorem process_sequence_del1_keep_err (seq primer_f primer_r : List Char) (side : String)
    (n : Nat) (rs : RandSrc) (fuel : Nat)
    (hhead : (del1 (pyUpper seq)).head? = none) :
    process_sequence seq primer_f primer_r "del1" true side n rs fuel =
      some (Except.error PyErr.indexError) := by
  simp [process_sequence, hhead]

theorem process_sequence_unsupported_eq (seq primer_f primer_r : List Char)
    (mut_type : String) (ks : Bool) (side : String) (n : Nat) (rs : RandSrc) (fuel : Nat)
    (h1 : mut_type ≠ "single") (h2 : mut_type ≠ "double") (h3 : mut_type ≠ "triple")
    (h4 : mut_type ≠ "del1") (h5 : mut_type ≠ "del2") :
    process_sequence seq primer_f primer_r mut_type ks side n rs fuel =
      some (Except.error (PyErr.valueError "Unsupported mutation type")) := by
  simp [process_sequence, h1, h2, h3, h4, h5]

/-! ### Lengths of the deletion generators -/

theorem length_del1 (seq : List Char) : (del1 seq).length = seq.length := by
  simp [del1]

theorem length_del2 (seq : List Char) : (del2 seq).length = seq.length.choose 2 := by
  simp [del2, length_combinations]

theorem mem_del1_length {seq c : List Char} (h : c ∈ del1 seq) :
    c.length = seq.length - 1 := by
  rcases List.mem_map.mp h with ⟨i, hi, rfl⟩
  have hiL : i < seq.length := List.mem_range.mp hi
  rw [List.length_append, List.length_take, List.length_drop]
  omega

theorem mem_del2_length {seq c : List Char} (h : c ∈ del2 seq) :
    c.length = seq.length - 2 := by
  rcases List.mem_map.mp h with ⟨pq, hpq, rfl⟩
  have hlen := (mem_combinations_sublist hpq).2
  have hpair := combinations_range_pairwise hpq
  have hbound := combinations_range_lt hpq
  match pq, hlen with
  | [i, j], _ =>
    have hij : i < j := List.rel_of_pairwise_cons hpair (List.mem_cons_self j [])
    have hjL : j < seq.length := hbound j (by simp)
    simp only
    rw [List.length_append, List.length_append, List.length_take, List.length_drop,
      List.length_take, List.length_drop]
    omega

theorem del1_head_of_ne {seq : List Char} (hne : seq ≠ []) :
    ∃ c0, (del1 seq).head? = some c0 := by
  cases h : (del1 seq).head? with
  | none =>
    exfalso
    have hnil := List.head?_eq_none_iff.mp h
    have := length_del1 seq
    rw [hnil] at this
    exact hne (List.length_eq_zero.mp this.symm)
  | some c0 => exact ⟨c0, rfl⟩

theorem process_del1_keep_isOk (seq primer_f primer_r : List Char) (side : String)
    (n : Nat) (rs : RandSrc) (fuel : Nat) (hne : seq ≠ []) :
    ∃ res, process_sequence seq primer_f primer_r "del1" true side n rs fuel =
      some (Except.ok res) := by
  have hup : pyUpper seq ≠ [] := by
    intro h
    exact hne (List.map_eq_nil_iff.mp h)
  obtain ⟨c0, hh⟩ := del1_head_of_ne hup
  exact ⟨_, process_sequence_del1_keep_eq seq primer_f primer_r side n rs fuel c0 hh⟩

/-- Unfolding of the UI run block when the (stripped, uppercased)
sequence is non-empty: the three output lists come from the overwrite in
lines 106–108 of `sl-connection.py`, with the primers used exactly as
entered. -/
theorem uiRun_ok_eq (seqRaw primer_f primer_r : List Char) (mutType : UIMode)
    (count sample_size : Nat) (idxs : List Nat) (side : String) (rs : RandSrc)
    (fuel : Nat)
    (hne : pyUpper (seqRaw.filter (fun c => decide (c ≠ '\n'))) ≠ []) :
    uiRun seqRaw primer_f primer_r mutType count sample_size idxs side rs fuel =
      (let seq := pyUpper (seqRaw.filter (fun c => decide (c ≠ '\n')))
       let core0 := match mutType with
         | UIMode.replace => replace_k_mutations seq count
         | UIMode.delete => delete_k_mutations seq count
       let core_list := if sample_size < core0.length then pySample core0 idxs else core0
       some (Except.ok
        ⟨core_list.map (fun c => primer_f ++ c ++ primer_r), core_list,
         (List.range core_list.length).map (fun i =>
           uiModeName mutType ++ "_k" ++ toString count ++ "_" ++ toString (i + 1))⟩)) := by
  obtain ⟨res, hres⟩ := process_del1_keep_isOk _ primer_f primer_r side sample_size rs fuel hne
  simp only [uiRun, if_neg hne, hres]

/-! ### Theory of `single_mutations` -/

theorem take_cons_drop_eq_set (seq : List Char) (i : Nat) (b : Char) (h : i < seq.length) :
    seq.take i ++ [b] ++ seq.drop (i + 1) = seq.set i b := by
  rw [List.set_eq_take_append_cons_drop, if_pos h, List.append_assoc, List.singleton_append]

theorem diffPositions_self (seq : List Char) : diffPositions seq seq = [] := by
  simp [diffPositions]

theorem set_isMutant {seq : List Char} {i : Nat} {b : Char} (hi : i < seq.length)
    (hb : b ∈ BASES) (hne : b ≠ seq.getD i ' ') : IsMutant seq (seq.set i b) 1 := by
  have happ : applySubs seq [i] [b] = seq.set i b := rfl
  have v : ValidSubst seq [i] [b] :=
    { sorted := List.pairwise_singleton _ i
      lt := by
        intro p hp
        rw [List.mem_singleton.mp hp]
        exact hi
      len := rfl
      ne := by
        intro j hj
        have hj0 : j = 0 := by simpa using hj
        subst hj0
        exact hne }
  have := applySubs_isMutant v (by
    intro j hj
    have hj0 : j = 0 := by simpa using hj
    subst hj0
    exact hb)
  rwa [happ] at this

theorem mem_single_mutations {seq t : List Char} (h : t ∈ single_mutations seq) :
    IsMutant seq t 1 ∧ t ≠ seq := by
  rw [single_mutations, List.mem_flatMap] at h
  rcases h with ⟨i, hi, hmap⟩
  rcases List.mem_map.mp hmap with ⟨b, hb, rfl⟩
  have hiL : i < seq.length := List.mem_range.mp hi
  rcases List.mem_filter.mp hb with ⟨hbB, hbne⟩
  have hbne' : b ≠ seq.getD i ' ' := decide_eq_true_eq.mp hbne
  rw [take_cons_drop_eq_set seq i b hiL]
  have hmut : IsMutant seq (seq.set i b) 1 := set_isMutant hiL hbB hbne'
  refine ⟨hmut, ?_⟩
  intro heq
  have := hmut.2.1
  rw [heq, diffPositions_self] at this
  simp at this

theorem length_flatMap_range_uniform {α : Type} (g : Nat → List α) (n c : Nat)
    (hlen : ∀ i, i < n → (g i).length = c) :
    ((List.range n).flatMap g).length = n * c := by
  induction n with
  | zero => simp
  | succ n ih =>
    rw [List.range_succ, List.flatMap_append, List.length_append,
      ih (fun i hi => hlen i (Nat.lt_succ_of_lt hi))]
    simp only [List.flatMap_cons, List.flatMap_nil, List.append_nil]
    rw [hlen n (Nat.lt_succ_self n)]
    ring

theorem getD_flatMap_range_uniform {α : Type} (g : Nat → List α) (n c : Nat) (d : α)
    (hlen : ∀ i, i < n → (g i).length = c) (i j : Nat) (hi : i < n) (hj : j < c) :
    ((List.range n).flatMap g).getD (c * i + j) d = (g i).getD j d := by
  induction n with
  | zero => exact absurd hi (Nat.not_lt_zero i)
  | succ n ih =>
    rw [List.range_succ, List.flatMap_append]
    have hleft : ((List.range n).flatMap g).length = c * n := by
      rw [length_flatMap_range_uniform g n c (fun i' hi' => hlen i' (Nat.lt_succ_of_lt hi'))]
      exact Nat.mul_comm n c
    by_cases hin : i < n
    · have hbound : c * i + j < c * n := by
        have h1 : c * (i + 1) ≤ c * n := Nat.mul_le_mul_left c hin
        have h2 : c * i + j < c * (i + 1) := by
          rw [Nat.mul_succ]
          omega
        omega
      rw [List.getD_append _ _ d _ (by rw [hleft]; exact hbound)]
      exact ih (fun i' hi' => hlen i' (Nat.lt_succ_of_lt hi')) hin
    · have hieq : i = n := by omega
      subst hieq
      rw [List.getD_append_right _ _ d _ (by rw [hleft]; omega)]
      rw [hleft]
      simp only [List.flatMap_cons, List.flatMap_nil, List.append_nil]
      congr 1
      omega

theorem length_single_mutations (seq : List Char) (halpha : ∀ c ∈ seq, c ∈ BASES) :
    (single_mutations seq).length = 3 * seq.length := by
  rw [single_mutations, length_flatMap_range_uniform _ _ 3, Nat.mul_comm]
  intro i hi
  rw [List.length_map]
  exact length_filter_BASES (getD_mem_BASES halpha hi)

theorem getD_single_mutations (seq : List Char) (halpha : ∀ c ∈ seq, c ∈ BASES)
    (i j : Nat) (hi : i < seq.length) (hj : j < 3) :
    (single_mutations seq).getD (3 * i + j) [] =
      seq.take i ++ [(BASES.filter (fun b => decide (b ≠ seq.getD i ' '))).getD j ' ']
        ++ seq.drop (i + 1) := by
  have hlen : ∀ i', i' < seq.length →
      (((BASES.filter (fun b => decide (b ≠ seq.getD i' ' '))).map (fun b =>
        seq.take i' ++ [b] ++ seq.drop (i' + 1))).length) = 3 := by
    intro i' hi'
    rw [List.length_map]
    exact length_filter_BASES (getD_mem_BASES halpha hi')
  rw [single_mutations, getD_flatMap_range_uniform _ _ 3 [] hlen i j hi hj]
  rw [getD_map_of_lt _ _ j [] ' ']
  rw [length_filter_BASES (getD_mem_BASES halpha hi)]
  exact hj

theorem process_sequence_del2_keep_err (seq primer_f primer_r : List Char) (side : String)
    (n : Nat) (rs : RandSrc) (fuel : Nat)
    (hhead : (del2 (pyUpper seq)).head? = none) :
    process_sequence seq primer_f primer_r "del2" true side n rs fuel =
      some (Except.error PyErr.indexError) := by
  simp [process_sequence, hhead]

/-- Every normal return of `process_sequence` consists of a core list,
its flank-assembled image, and the 1-based labels — whatever the mode. -/
theorem process_sequence_ok_shape {seq primer_f primer_r : List Char} {mut_type : String}
    {ks : Bool} {side : String} {n : Nat} {rs : RandSrc} {fuel : Nat} {res : ProcResult}
    (h : process_sequence seq primer_f primer_r mut_type ks side n rs fuel =
      some (Except.ok res)) :
    ∃ core_list, res =
      ⟨core_list.map (fun c => pyUpper primer_f ++ c ++ pyUpper primer_r), core_list,
       (List.range (core_list.map
          (fun c => pyUpper primer_f ++ c ++ pyUpper primer_r)).length).map
          (fun i => mut_type ++ "_" ++ toString (i + 1))⟩ := by
  by_cases h1 : mut_type = "single"
  · subst h1
    rw [process_sequence_single_eq] at h
    exact ⟨single_mutations (pyUpper seq), by injection h with h; injection h with h; exact h.symm⟩
  by_cases h2 : mut_type = "double"
  · subst h2
    rw [process_sequence_double_eq] at h
    exact ⟨double_mutations (pyUpper seq), by injection h with h; injection h with h; exact h.symm⟩
  by_cases h3 : mut_type = "triple"
  · subst h3
    rw [process_sequence_triple_eq] at h
    cases htr : triple_mutations_sampled (pyUpper seq) n rs fuel with
    | none =>
      rw [htr] at h
      cases h
    | some l =>
      rw [htr] at h
      refine ⟨l, ?_⟩
      injection h with h
      injection h with h
      exact h.symm
  by_cases h4 : mut_type = "del1"
  · subst h4
    cases ks with
    | false =>
      rw [process_sequence_del1_nokeep_eq] at h
      exact ⟨del1 (pyUpper seq), by injection h with h; injection h with h; exact h.symm⟩
    | true =>
      cases hh : (del1 (pyUpper seq)).head? with
      | none =>
        rw [process_sequence_del1_keep_err _ _ _ _ _ _ _ hh] at h
        cases h
      | some c0 =>
        rw [process_sequence_del1_keep_eq _ _ _ _ _ _ _ _ hh] at h
        simp only at h
        injection h with h
        injection h with h
        exact ⟨_, h.symm⟩
  by_cases h5 : mut_type = "del2"
  · subst h5
    cases ks with
    | false =>
      rw [process_sequence_del2_nokeep_eq] at h
      exact ⟨del2 (pyUpper seq), by injection h with h; injection h with h; exact h.symm⟩
    | true =>
      cases hh : (del2 (pyUpper seq)).head? with
      | none =>
        rw [process_sequence_del2_keep_err _ _ _ _ _ _ _ hh] at h
        cases h
      | some c0 =>
        rw [process_sequence_del2_keep_eq _ _ _ _ _ _ _ _ hh] at h
        simp only at h
        injection h with h
        injection h with h
        exact ⟨_, h.symm⟩
  · rw [process_sequence_unsupported_eq _ _ _ _ _ _ _ _ _ h1 h2 h3 h4 h5] at h
    cases h

theorem uiRun_nil_eq (seqRaw primer_f primer_r : List Char) (mutType : UIMode)
    (count sample_size : Nat) (idxs : List Nat) (side : String) (rs : RandSrc)
    (fuel : Nat)
    (hnil : pyUpper (seqRaw.filter (fun c => decide (c ≠ '\n'))) = []) :
    uiRun seqRaw primer_f primer_r mutType count sample_size idxs side rs fuel = none := by
  simp only [uiRun]
  rw [if_pos hnil]

/-- Every normal return of the UI run block consists of the UI-side core
list, its raw-primer-assembled image, and the `"{mode}_k{k}_{i}"` labels. -/
theorem uiRun_ok_shape {seqRaw primer_f primer_r : List Char} {mutType : UIMode}
    {count sample_size : Nat} {idxs : List Nat} {side : String} {rs : RandSrc}
    {fuel : Nat} {res : ProcResult}
    (h : uiRun seqRaw primer_f primer_r mutType count sample_size idxs side rs fuel =
      some (Except.ok res)) :
    ∃ core_list, res =
      ⟨core_list.map (fun c => primer_f ++ c ++ primer_r), core_list,
       (List.range core_list.length).map (fun i =>
         uiModeName mutType ++ "_k" ++ toString count ++ "_" ++ toString (i + 1))⟩ := by
  by_cases hnil : pyUpper (seqRaw.filter (fun c => decide (c ≠ '\n'))) = []
  · rw [uiRun_nil_eq _ _ _ _ _ _ _ _ _ _ hnil] at h
    cases h
  · rw [uiRun_ok_eq _ _ _ _ _ _ _ _ _ _ hnil] at h
    simp only at h
    injection h with h
    injection h with h
    exact ⟨_, h.symm⟩

/-! ### Claims -/

/-- Claim C1 (confirmed): for every input sequence, flanks and supported
mode, a normal return of the generation operation consists of three
order-aligned lists of equal length (full sequences, core-only
sequences, labels), and the full sequence at every index is the forward
flank, the core sequence at that index and the reverse flank
concatenated.  `process_sequence` assembles with the (normalized,
uppercased) flanks; the UI run block assembles with the flanks exactly
as entered. -/
theorem claim_C1 :
    (∀ (seq primer_f primer_r : List Char) (mut_type : String) (ks : Bool) (side : String)
      (n : Nat) (rs : RandSrc) (fuel : Nat) (res : ProcResult),
      process_sequence seq primer_f primer_r mut_type ks side n rs fuel =
        some (Except.ok res) →
      res.sequences.length = res.core_only.length ∧
      res.core_only.length = res.report.length ∧
      res.sequences = res.core_only.map (fun c => pyUpper primer_f ++ c ++ pyUpper primer_r)) ∧
    (∀ (seqRaw primer_f primer_r : List Char) (mutType : UIMode) (count sample_size : Nat)
      (idxs : List Nat) (side : String) (rs : RandSrc) (fuel : Nat) (res : ProcResult),
      uiRun seqRaw primer_f primer_r mutType count sample_size idxs side rs fuel =
        some (Except.ok res) →
      res.sequences.length = res.core_only.length ∧
      res.core_only.length = res.report.length ∧
      res.sequences = res.core_only.map (fun c => primer_f ++ c ++ primer_r)) := by
  constructor
  · intro seq f r mt ks side n rs fuel res h
    obtain ⟨core, rfl⟩ := process_sequence_ok_shape h
    simp
  · intro seqRaw f r mutType count n idxs side rs fuel res h
    obtain ⟨core, rfl⟩ := uiRun_ok_shape h
    simp

/-- Witness for C1 at concrete inputs (sequence `"A"`, single mode and
the UI replace mode with `k=1`). -/
theorem claim_C1_witness :
    (process_sequence "A".data "X".data "Y".data "single" true "5" 44424 rsA 0 =
      some (Except.ok ⟨["XTY".data, "XCY".data, "XGY".data], [['T'], ['C'], ['G']],
        ["single_1", "single_2", "single_3"]⟩) ∧
     ["XTY".data, "XCY".data, "XGY".data] =
       [['T'], ['C'], ['G']].map (fun c => pyUpper "X".data ++ c ++ pyUpper "Y".data)) ∧
    (uiRun "A".data "F".data "R".data UIMode.replace 1 100 [] "5" rsA 0 =
      some (Except.ok ⟨["FTR".data, "FCR".data, "FGR".data], [['T'], ['C'], ['G']],
        ["replace_k1_1", "replace_k1_2", "replace_k1_3"]⟩) ∧
     ["FTR".data, "FCR".data, "FGR".data] =
       [['T'], ['C'], ['G']].map (fun c => "F".data ++ c ++ "R".data)) :=
  ⟨⟨by decide,
    (claim_C1.1 "A".data "X".data "Y".data "single" true "5" 44424 rsA 0
      ⟨["XTY".data, "XCY".data, "XGY".data], [['T'], ['C'], ['G']],
       ["single_1", "single_2", "single_3"]⟩ (by decide)).2.2⟩,
   ⟨by decide,
    (claim_C1.2 "A".data "F".data "R".data UIMode.replace 1 100 [] "5" rsA 0
      ⟨["FTR".data, "FCR".data, "FGR".data], [['T'], ['C'], ['G']],
       ["replace_k1_1", "replace_k1_2", "replace_k1_3"]⟩ (by decide)).2.2⟩⟩

/-- Claim C10 (confirmed): the single-substitution, double-substitution
and (with `keep_length=false`) both fixed deletion modes are
deterministic — the result depends neither on the random source nor on
the loop fuel. -/
theorem claim_C10 :
    ∀ (seq primer_f primer_r : List Char) (side : String) (n : Nat) (ks : Bool)
      (rs₁ rs₂ : RandSrc) (fuel₁ fuel₂ : Nat) (mut_type : String),
      (mut_type = "single" ∨ mut_type = "double" ∨
        ((mut_type = "del1" ∨ mut_type = "del2") ∧ ks = false)) →
      process_sequence seq primer_f primer_r mut_type ks side n rs₁ fuel₁ =
      process_sequence seq primer_f primer_r mut_type ks side n rs₂ fuel₂ := by
  intro seq f r side n ks rs₁ rs₂ fuel₁ fuel₂ mt h
  rcases h with rfl | h'
  · rw [process_sequence_single_eq, process_sequence_single_eq]
  rcases h' with rfl | ⟨hmt, rfl⟩
  · rw [process_sequence_double_eq, process_sequence_double_eq]
  rcases hmt with rfl | rfl
  · rw [process_sequence_del1_nokeep_eq, process_sequence_del1_nokeep_eq]
  · rw [process_sequence_del2_nokeep_eq, process_sequence_del2_nokeep_eq]

/-- Witness for C10: two different random sources and fuels give the
same single-mode result. -/
theorem claim_C10_witness :
    ("single" = "single" ∨ "single" = "double" ∨
      (("single" = "del1" ∨ "single" = "del2") ∧ true = false)) ∧
    process_sequence "ATG".data "X".data "Y".data "single" true "5" 44424 rsA 0 =
      process_sequence "ATG".data "X".data "Y".data "single" true "5" 44424 rsB 7 :=
  ⟨by decide,
   claim_C10 "ATG".data "X".data "Y".data "5" 44424 true rsA rsB 0 7 "single" (by decide)⟩

/-- Counterexample to claim C5 as stated: an empty input sequence does
not raise any error — in single-substitution mode `process_sequence`
returns normally with three empty lists (the claim asserts an
`InvalidParameter` failure). -/
theorem claim_C5_counterexample :
    process_sequence [] [] [] "single" true "5" 44424 rsA 0 =
      some (Except.ok ⟨[], [], []⟩) ∧
    replace_k_mutations "ATG".data 5 = [] := by
  constructor
  · decide
  · decide

/-- Claim C5 (amended): only an unsupported mode is rejected, with
`ValueError "Unsupported mutation type"`.  An empty sequence is not
rejected: substitution modes return empty lists, and deletion modes
with `keep_length` crash with an `IndexError` instead.  A `k` larger
than the sequence length makes the exhaustive `k`-substitution
generator return an empty list rather than raise. -/
theorem claim_C5_amended :
    (∀ (seq primer_f primer_r : List Char) (mut_type : String) (ks : Bool) (side : String)
      (n : Nat) (rs : RandSrc) (fuel : Nat),
      mut_type ≠ "single" → mut_type ≠ "double" → mut_type ≠ "triple" →
      mut_type ≠ "del1" → mut_type ≠ "del2" →
      process_sequence seq primer_f primer_r mut_type ks side n rs fuel =
        some (Except.error (PyErr.valueError "Unsupported mutation type"))) ∧
    (∀ (primer_f primer_r : List Char) (ks : Bool) (side : String) (n : Nat)
      (rs : RandSrc) (fuel : Nat),
      process_sequence [] primer_f primer_r "single" ks side n rs fuel =
        some (Except.ok ⟨[], [], []⟩)) ∧
    (∀ (primer_f primer_r : List Char) (side : String) (n : Nat) (rs : RandSrc) (fuel : Nat),
      process_sequence [] primer_f primer_r "del1" true side n rs fuel =
        some (Except.error PyErr.indexError)) ∧
    (∀ (seq : List Char) (k : Nat), seq.length < k → replace_k_mutations seq k = []) := by
  refine ⟨?_, ?_, ?_, ?_⟩
  · intro seq f r mt ks side n rs fuel h1 h2 h3 h4 h5
    exact process_sequence_unsupported_eq seq f r mt ks side n rs fuel h1 h2 h3 h4 h5
  · intro f r ks side n rs fuel
    rw [process_sequence_single_eq]
    rfl
  · intro f r side n rs fuel
    exact process_sequence_del1_keep_err [] f r side n rs fuel rfl
  · intro seq k hk
    have hcomb : combinations k (List.range seq.length) = [] := by
      have hlen := length_combinations k (List.range seq.length)
      rw [List.length_range, Nat.choose_eq_zero_of_lt hk] at hlen
      exact List.length_eq_zero.mp hlen
    rw [replace_k_mutations, hcomb]
    rfl

/-- Witness for the amended C5: every amended behaviour evaluated at a
concrete input. -/
theorem claim_C5_witness :
    process_sequence "ATG".data [] [] "frameshift" true "5" 44424 rsA 0 =
      some (Except.error (PyErr.valueError "Unsupported mutation type")) ∧
    process_sequence [] "X".data "Y".data "single" true "5" 44424 rsA 0 =
      some (Except.ok ⟨[], [], []⟩) ∧
    process_sequence [] "X".data "Y".data "del1" true "5" 44424 rsA 0 =
      some (Except.error PyErr.indexError) ∧
    replace_k_mutations "ATG".data 5 = [] :=
  ⟨claim_C5_amended.1 "ATG".data [] [] "frameshift" true "5" 44424 rsA 0
      (by decide) (by decide) (by decide) (by decide) (by decide),
   claim_C5_amended.2.1 "X".data "Y".data true "5" 44424 rsA 0,
   claim_C5_amended.2.2.1 "X".data "Y".data "5" 44424 rsA 0,
   claim_C5_amended.2.2.2 "ATG".data 5 (by decide)⟩

/-- Counterexample to claim C9 as stated: for `S="ATG"` in
single-substitution mode the first label emitted by the code is
`"single_1"`, not the claimed `"single_sub_1"` (the code formats labels
with its own mode names `single`, `double`, `triple`, `del1`, `del2`). -/
theorem claim_C9_counterexample :
    (process_sequence "ATG".data "X".data "Y".data "single" true "5" 44424 rsA 0).map
        (fun e => e.map (fun r => (r.sequences.getD 0 [], r.report.getD 0 ""))) =
      some (Except.ok ("XTTGY".data, "single_1")) ∧
    "single_1" ≠ "single_sub_1" := by
  constructor
  · decide
  · decide

/-- Claim C9 (amended): the label at 1-based index `i` is
`"{mode}_{i}"` with the code's mode names (`single`, `double`,
`triple`, `del1`, `del2`), and `"{mode}_k{k}_{i}"` (mode `replace` or
`delete`) in the UI layer; for `S="ATG"` in single mode with flanks
`"X"`/`"Y"` the first full entry is `"XTTGY"` and the first label is
`"single_1"`. -/
theorem claim_C9_amended :
    (∀ (seq primer_f primer_r : List Char) (mut_type : String) (ks : Bool) (side : String)
      (n : Nat) (rs : RandSrc) (fuel : Nat) (res : ProcResult),
      process_sequence seq primer_f primer_r mut_type ks side n rs fuel =
        some (Except.ok res) →
      res.report = (List.range res.core_only.length).map
        (fun i => mut_type ++ "_" ++ toString (i + 1))) ∧
    (∀ (seqRaw primer_f primer_r : List Char) (mutType : UIMode) (count sample_size : Nat)
      (idxs : List Nat) (side : String) (rs : RandSrc) (fuel : Nat) (res : ProcResult),
      uiRun seqRaw primer_f primer_r mutType count sample_size idxs side rs fuel =
        some (Except.ok res) →
      res.report = (List.range res.core_only.length).map
        (fun i => uiModeName mutType ++ "_k" ++ toString count ++ "_" ++ toString (i + 1))) ∧
    (process_sequence "ATG".data "X".data "Y".data "single" true "5" 44424 rsA 0).map
        (fun e => e.map (fun r => (r.sequences.getD 0 [], r.report.getD 0 ""))) =
      some (Except.ok ("XTTGY".data, "single_1")) := by
  refine ⟨?_, ?_, by decide⟩
  · intro seq f r mt ks side n rs fuel res h
    obtain ⟨core, rfl⟩ := process_sequence_ok_shape h
    simp
  · intro seqRaw f r mutType count n idxs side rs fuel res h
    obtain ⟨core, rfl⟩ := uiRun_ok_shape h
    rfl

/-- Witness for the amended C9 at a concrete input. -/
theorem claim_C9_witness :
    ["single_1", "single_2", "single_3"] =
      (List.range ([['T'], ['C'], ['G']] : List (List Char)).length).map
        (fun i => "single" ++ "_" ++ toString (i + 1)) :=
  claim_C9_amended.1 "A".data "X".data "Y".data "single" true "5" 44424 rsA 0
    ⟨["XTY".data, "XCY".data, "XGY".data], [['T'], ['C'], ['G']],
     ["single_1", "single_2", "single_3"]⟩ (by decide)

/-- Counterexample to claim C6 as stated: the UI layer does not
uppercase the flanks.  With flanks `"aa"`/`"tt"` the run block behaves
differently from `"AA"`/`"TT"`, because lines 106–108 of
`sl-connection.py` assemble with the primers exactly as entered. -/
theorem claim_C6_counterexample :
    uiRun "ATG".data "aa".data "tt".data UIMode.replace 1 100 [] "5" rsA 0 ≠
      uiRun "ATG".data "AA".data "TT".data UIMode.replace 1 100 [] "5" rsA 0 := by
  decide

/-- Claim C6 (amended): `process_sequence` uppercases the sequence and
both flanks before any generation or assembly step (so it is invariant
under uppercasing all three inputs); the UI pipeline uppercases only
the input sequence — its behaviour is invariant under uppercasing the
sequence, while the flanks are used exactly as entered. -/
theorem claim_C6_amended :
    (∀ (seq primer_f primer_r : List Char) (mut_type : String) (ks : Bool) (side : String)
      (n : Nat) (rs : RandSrc) (fuel : Nat),
      process_sequence seq primer_f primer_r mut_type ks side n rs fuel =
        process_sequence (pyUpper seq) (pyUpper primer_f) (pyUpper primer_r)
          mut_type ks side n rs fuel) ∧
    (∀ (seqRaw primer_f primer_r : List Char) (mutType : UIMode) (count sample_size : Nat)
      (idxs : List Nat) (side : String) (rs : RandSrc) (fuel : Nat),
      uiRun seqRaw primer_f primer_r mutType count sample_size idxs side rs fuel =
        uiRun (pyUpper seqRaw) primer_f primer_r mutType count sample_size idxs
          side rs fuel) := by
  constructor
  · intro seq f r mt ks side n rs fuel
    simp only [process_sequence, pyUpper_idem]
  · intro seqRaw f r mutType count n idxs side rs fuel
    have hcomm : pyUpper ((pyUpper seqRaw).filter (fun c => decide (c ≠ '\n'))) =
        pyUpper (seqRaw.filter (fun c => decide (c ≠ '\n'))) := by
      rw [pyUpper, pyUpper, List.filter_map]
      rw [show List.filter ((fun c => decide (c ≠ '\n')) ∘ upperChar) seqRaw =
        List.filter (fun c => decide (c ≠ '\n')) seqRaw from
        List.filter_congr (fun c _ =>
          decide_eq_decide.mpr (not_congr (upperChar_eq_newline_iff c)))]
      rw [← pyUpper, ← pyUpper, pyUpper_idem]
    simp only [uiRun, hcomm]

/-- Counterexample to claim C2 as stated: the UI deletion pipeline is a
deletion-mode invocation with `keep_length=true` (hard-coded in line
100 of `sl-connection.py`), yet its output core variants are the
unpadded deletions: on `"ATG"` with `k=1` the first output core is
`"TG"`, of length 2 ≠ 3.  The padded variants computed inside
`process_sequence` are discarded by the overwrite in lines 106–108. -/
theorem claim_C2_counterexample :
    uiRun "ATG".data [] [] UIMode.delete 1 100 [] "5" rsA 0 =
      some (Except.ok ⟨["TG".data, "AG".data, "AT".data],
        ["TG".data, "AG".data, "AT".data],
        ["delete_k1_1", "delete_k1_2", "delete_k1_3"]⟩) ∧
    ("TG".data).length ≠ ("ATG".data).length := by
  constructor
  · decide
  · decide

/-- Claim C2 (amended): for `process_sequence` in a deletion mode with
`keep_length=true`, every returned core variant has length exactly the
input length, and one fill string — drawn once per invocation — is
prepended (side `"5"`) or appended (otherwise) identically to every
deletion variant.  The UI deletion pipeline, despite passing
`keep_length=true`, discards the padded variants and outputs unpadded
cores (see the counterexample). -/
theorem claim_C2_amended :
    ∀ (seq primer_f primer_r : List Char) (mut_type side : String) (n : Nat)
      (rs : RandSrc) (fuel : Nat) (res : ProcResult),
      (mut_type = "del1" ∨ mut_type = "del2") →
      process_sequence seq primer_f primer_r mut_type true side n rs fuel =
        some (Except.ok res) →
      (∀ c ∈ res.core_only, c.length = seq.length) ∧
      ∃ fill : List Char,
        fill.length = (if mut_type = "del1" then 1 else 2) ∧
        res.core_only = (if side = "5"
          then (if mut_type = "del1" then del1 (pyUpper seq) else del2 (pyUpper seq)).map
            (fun c => fill ++ c)
          else (if mut_type = "del1" then del1 (pyUpper seq) else del2 (pyUpper seq)).map
            (fun c => c ++ fill)) := by
  intro seq f r mt side n rs fuel res hmt h
  have hLs : (pyUpper seq).length = seq.length := by
    rw [pyUpper, List.length_map]
  rcases hmt with rfl | rfl
  · cases hh : (del1 (pyUpper seq)).head? with
    | none =>
      rw [process_sequence_del1_keep_err _ _ _ _ _ _ _ hh] at h
      cases h
    | some c0 =>
      rw [process_sequence_del1_keep_eq _ _ _ _ _ _ _ _ hh] at h
      simp only at h
      injection h with h
      injection h with h
      subst h
      have hc0 : c0 ∈ del1 (pyUpper seq) :=
        List.mem_of_mem_head? (by rw [hh]; exact rfl)
      have hlc0 : c0.length = (pyUpper seq).length - 1 := mem_del1_length hc0
      have hL1 : 1 ≤ (pyUpper seq).length := by
        by_contra hcon
        have h0 : (pyUpper seq).length = 0 := by omega
        have : del1 (pyUpper seq) = [] := by
          have := length_del1 (pyUpper seq)
          rw [h0] at this
          exact List.length_eq_zero.mp this
        rw [this] at hh
        cases hh
      have hnd : ((c0.length : Int) - ((pyUpper seq).length : Int)).natAbs = 1 := by
        rw [hlc0]
        omega
      constructor
      · intro c hc
        simp only at hc
        by_cases hs : side = "5" <;> simp only [if_pos, hs, if_neg, if_true, if_false] at hc <;>
          rcases List.mem_map.mp (by simpa using hc) with ⟨d, hd, rfl⟩ <;>
          have hdl := mem_del1_length hd <;>
          simp only [List.length_append, List.length_map, List.length_range, hnd] <;>
          omega
      · refine ⟨(List.range (((c0.length : Int) - ((pyUpper seq).length : Int)).natAbs)).map
          rs.fills, ?_, ?_⟩
        · rw [List.length_map, List.length_range, hnd]
          rfl
        · rfl
  · cases hh : (del2 (pyUpper seq)).head? with
    | none =>
      rw [process_sequence_del2_keep_err _ _ _ _ _ _ _ hh] at h
      cases h
    | some c0 =>
      rw [process_sequence_del2_keep_eq _ _ _ _ _ _ _ _ hh] at h
      simp only at h
      injection h with h
      injection h with h
      subst h
      have hc0 : c0 ∈ del2 (pyUpper seq) :=
        List.mem_of_mem_head? (by rw [hh]; exact rfl)
      have hlc0 : c0.length = (pyUpper seq).length - 2 := mem_del2_length hc0
      have hL2 : 2 ≤ (pyUpper seq).length := by
        by_contra hcon
        have h0 : (pyUpper seq).length < 2 := by omega
        have : del2 (pyUpper seq) = [] := by
          have hld := length_del2 (pyUpper seq)
          rw [Nat.choose_eq_zero_of_lt h0] at hld
          exact List.length_eq_zero.mp hld
        rw [this] at hh
        cases hh
      have hnd : ((c0.length : Int) - ((pyUpper seq).length : Int)).natAbs = 2 := by
        rw [hlc0]
        omega
      constructor
      · intro c hc
        simp only at hc
        by_cases hs : side = "5" <;> simp only [if_pos, hs, if_neg, if_true, if_false] at hc <;>
          rcases List.mem_map.mp (by simpa using hc) with ⟨d, hd, rfl⟩ <;>
          have hdl := mem_del2_length hd <;>
          simp only [List.length_append, List.length_map, List.length_range, hnd] <;>
          omega
      · refine ⟨(List.range (((c0.length : Int) - ((pyUpper seq).length : Int)).natAbs)).map
          rs.fills, ?_, ?_⟩
        · rw [List.length_map, List.length_range, hnd]
          rfl
        · rfl

/-- Witness for the amended C2 at `seq="ATG"`, `del1`, side `"5"`:
with the constant fill source `rsA` every padded core has length 3 and
shares the fill `"A"`. -/
theorem claim_C2_witness :
    ("del1" = "del1" ∨ "del1" = "del2") ∧
    ((∀ c ∈ (⟨["ATG".data, "AAG".data, "AAT".data],
        ["ATG".data, "AAG".data, "AAT".data],
        ["del1_1", "del1_2", "del1_3"]⟩ : ProcResult).core_only,
        c.length = ("ATG".data).length) ∧
     ∃ fill : List Char,
       fill.length = (if "del1" = "del1" then 1 else 2) ∧
       (⟨["ATG".data, "AAG".data, "AAT".data],
         ["ATG".data, "AAG".data, "AAT".data],
         ["del1_1", "del1_2", "del1_3"]⟩ : ProcResult).core_only =
        (if "5" = "5"
          then (if "del1" = "del1" then del1 (pyUpper "ATG".data)
            else del2 (pyUpper "ATG".data)).map (fun c => fill ++ c)
          else (if "del1" = "del1" then del1 (pyUpper "ATG".data)
            else del2 (pyUpper "ATG".data)).map (fun c => c ++ fill))) :=
  ⟨Or.inl rfl,
   claim_C2_amended "ATG".data [] [] "del1" "5" 44424 rsA 0
     ⟨["ATG".data, "AAG".data, "AAT".data],
      ["ATG".data, "AAG".data, "AAT".data],
      ["del1_1", "del1_2", "del1_3"]⟩ (Or.inl rfl) (by decide)⟩

/-- Claim C3 (confirmed): for every sequence over `{A,T,C,G}` of length
`L`, `single_mutations` returns exactly `3L` entries, each of length
`L`, differing from the input at exactly one position and never equal
to it; the entry at index `3·i + j` substitutes position `i` with the
`j`-th base of `BASES = [A,T,C,G]` with the original symbol removed —
position-major order, alphabet order within a position. -/
theorem claim_C3 :
    ∀ (seq : List Char), (∀ c ∈ seq, c ∈ BASES) →
      (single_mutations seq).length = 3 * seq.length ∧
      (∀ t ∈ single_mutations seq,
        t.length = seq.length ∧ (diffPositions seq t).length = 1 ∧ t ≠ seq) ∧
      (∀ i j, i < seq.length → j < 3 →
        (single_mutations seq).getD (3 * i + j) [] =
          seq.take i ++ [(BASES.filter (fun b => decide (b ≠ seq.getD i ' '))).getD j ' ']
            ++ seq.drop (i + 1)) := by
  intro seq halpha
  refine ⟨length_single_mutations seq halpha, ?_, ?_⟩
  · intro t ht
    obtain ⟨⟨hlen, hdiff, _⟩, hne⟩ := mem_single_mutations ht
    exact ⟨hlen, hdiff, hne⟩
  · intro i j hi hj
    exact getD_single_mutations seq halpha i j hi hj

/-- Witness for C3 at `seq="ATG"`. -/
theorem claim_C3_witness :
    (∀ c ∈ "ATG".data, c ∈ BASES) ∧
    ((single_mutations "ATG".data).length = 3 * ("ATG".data).length ∧
     (∀ t ∈ single_mutations "ATG".data,
       t.length = ("ATG".data).length ∧ (diffPositions "ATG".data t).length = 1 ∧
       t ≠ "ATG".data) ∧
     (∀ i j, i < ("ATG".data).length → j < 3 →
       (single_mutations "ATG".data).getD (3 * i + j) [] =
         "ATG".data.take i ++
           [(BASES.filter (fun b => decide (b ≠ "ATG".data.getD i ' '))).getD j ' ']
           ++ "ATG".data.drop (i + 1))) :=
  ⟨by decide, claim_C3 "ATG".data (by decide)⟩

/-- Claim C4 (confirmed): whenever the sampled triple-substitution
generator returns, it returns exactly `min(n, 27·C(L,3))`
pairwise-distinct strings, each of the input's length and differing
from it at exactly 3 positions. -/
theorem claim_C4 :
    ∀ (seq : List Char) (n : Nat) (rs : RandSrc) (fuel : Nat) (out : List (List Char)),
      (∀ k, ValidDraw seq (rs.draws k)) →
      triple_mutations_sampled seq n rs fuel = some out →
      out.length = min n (27 * seq.length.choose 3) ∧ out.Nodup ∧
      ∀ t ∈ out, t.length = seq.length ∧ (diffPositions seq t).length = 3 := by
  intro seq n rs fuel out hvalid h
  simp only [triple_mutations_sampled] at h
  have hupper : (combinations 3 (List.range seq.length)).length * 3 ^ 3 =
      27 * seq.length.choose 3 := by
    rw [length_combinations, List.length_range]
    have h27 : (3 : Nat) ^ 3 = 27 := by norm_num
    rw [h27, Nat.mul_comm]
  obtain ⟨h1, h2, h3⟩ := tripleAux_spec hvalid fuel 0 [] out List.nodup_nil
    (by intro s hs; cases hs) (Nat.zero_le _) h
  rw [hupper] at h1
  exact ⟨h1, h2, fun t ht => ⟨(h3 t ht).1, (h3 t ht).2.1⟩⟩

/-- Witness for C4: on `"ATG"` with `n=1` and the constant valid draw
source `rsA`, the loop returns `["TAA"]` after one step. -/
theorem claim_C4_witness :
    triple_mutations_sampled "ATG".data 1 rsA 1 = some ["TAA".data] ∧
    (["TAA".data] : List (List Char)).length = min 1 (27 * ("ATG".data).length.choose 3) ∧
    (["TAA".data] : List (List Char)).Nodup :=
  ⟨by decide,
   (claim_C4 "ATG".data 1 rsA 1 ["TAA".data]
     (fun _ => show ValidDraw "ATG".data ⟨[0, 1, 2], ['T', 'A', 'A']⟩ by decide)
     (by decide)).1,
   (claim_C4 "ATG".data 1 rsA 1 ["TAA".data]
     (fun _ => show ValidDraw "ATG".data ⟨[0, 1, 2], ['T', 'A', 'A']⟩ by decide)
     (by decide)).2.1⟩

/-- Claim C7 (confirmed): in the UI's general `k`-exhaustive
substitution mode, the exhaustive list is fully materialized first;
when it exceeds the sample size the code takes a simple random sample
without replacement (modelled by a list of distinct in-range indices),
so the result has exactly `min(C(L,k)·3^k, sample_size)` entries, all
pairwise distinct and all members of the exhaustive set. -/
theorem claim_C7 :
    ∀ (seqRaw primer_f primer_r : List Char) (k n : Nat) (idxs : List Nat) (side : String)
      (rs : RandSrc) (fuel : Nat) (seq : List Char),
      seq = pyUpper (seqRaw.filter (fun c => decide (c ≠ '\n'))) →
      seq ≠ [] → (∀ c ∈ seq, c ∈ BASES) →
      idxs.Nodup → idxs.length = n →
      (∀ i ∈ idxs, i < (replace_k_mutations seq k).length) →
      ∃ res, uiRun seqRaw primer_f primer_r UIMode.replace k n idxs side rs fuel =
          some (Except.ok res) ∧
        res.core_only.length = min (seq.length.choose k * 3 ^ k) n ∧
        res.core_only.Nodup ∧
        ∀ c ∈ res.core_only, c ∈ replace_k_mutations seq k := by
  intro seqRaw f r k n idxs side rs fuel seq hseq hne halpha hnd hlenidx hbound
  have hne' : pyUpper (seqRaw.filter (fun c => decide (c ≠ '\n'))) ≠ [] := hseq ▸ hne
  rw [uiRun_ok_eq _ _ _ _ _ _ _ _ _ _ hne']
  simp only [← hseq]
  have hrk := length_replace_k seq k halpha
  by_cases hlt : n < (replace_k_mutations seq k).length
  · rw [if_pos hlt]
    refine ⟨_, rfl, ?_, ?_, ?_⟩
    · simp only [pySample, List.length_map, hlenidx]
      rw [Nat.min_eq_right]
      rw [← hrk]
      omega
    · refine List.Nodup.map_on ?_ hnd
      intro i₁ h₁ i₂ h₂ heq
      rw [getD_of_lt [] (hbound i₁ h₁), getD_of_lt [] (hbound i₂ h₂)] at heq
      exact ((nodup_replace_k seq k).getElem_inj_iff).mp heq
    · intro c hc
      rcases List.mem_map.mp hc with ⟨i, hi, rfl⟩
      rw [getD_of_lt [] (hbound i hi)]
      exact List.getElem_mem (hbound i hi)
  · rw [if_neg hlt]
    refine ⟨_, rfl, ?_, nodup_replace_k seq k, fun c hc => hc⟩
    rw [hrk, Nat.min_eq_left]
    rw [← hrk]
    omega

/-- Witness for C7 at `seq="ATG"`, `k=1`, `sample_size=2`,
indices `[0,3]`: the exhaustive set has 9 entries, so the result is the
2-element sample. -/
theorem claim_C7_witness :
    ("ATG".data : List Char) = pyUpper ("ATG".data.filter (fun c => decide (c ≠ '\n'))) ∧
    (∃ res, uiRun "ATG".data [] [] UIMode.replace 1 2 [0, 3] "5" rsA 0 =
        some (Except.ok res) ∧
      res.core_only.length = min (("ATG".data).length.choose 1 * 3 ^ 1) 2 ∧
      res.core_only.Nodup ∧
      ∀ c ∈ res.core_only, c ∈ replace_k_mutations "ATG".data 1) :=
  ⟨by decide,
   claim_C7 "ATG".data [] [] 1 2 [0, 3] "5" rsA 0 "ATG".data (by decide) (by decide)
     (by decide) (by decide) (by decide) (by decide)⟩

/-- Every valid draw on `"ATG"` occurs in the cyclic enumeration
`drawsATG`. -/
theorem validDraw_ATG_mem {d : Draw} (h : ValidDraw "ATG".data d) : d ∈ drawsATG := by
  obtain ⟨hpair, hp3, hb3, hlt, hbase⟩ := h
  rcases d with ⟨pos, bases⟩
  simp only at hpair hp3 hb3 hlt hbase ⊢
  obtain ⟨p0, p1, p2, rfl⟩ := List.length_eq_three.mp hp3
  obtain ⟨b0, b1, b2, rfl⟩ := List.length_eq_three.mp hb3
  rcases List.pairwise_cons.mp hpair with ⟨h0, hrest⟩
  rcases List.pairwise_cons.mp hrest with ⟨h1, _⟩
  have h01 : p0 < p1 := h0 p1 (List.mem_cons_self p1 [p2])
  have h12 : p1 < p2 := h1 p2 (List.mem_cons_self p2 [])
  have hL : ("ATG".data).length = 3 := rfl
  have hp2L : p2 < 3 := hL ▸ hlt p2 (by simp)
  have hp0 : p0 = 0 := by omega
  have hp1 : p1 = 1 := by omega
  have hp2 : p2 = 2 := by omega
  subst hp0
  subst hp1
  subst hp2
  refine List.mem_map.mpr ⟨[b0, b1, b2], ?_, rfl⟩
  refine mem_pyProduct.mpr ?_
  refine List.Forall₂.cons ?_ (List.Forall₂.cons ?_ (List.Forall₂.cons ?_ List.Forall₂.nil))
  · exact List.mem_filter.mpr ⟨(hbase 0 (by omega)).1,
      decide_eq_true_eq.mpr (hbase 0 (by omega)).2⟩
  · exact List.mem_filter.mpr ⟨(hbase 1 (by omega)).1,
      decide_eq_true_eq.mpr (hbase 1 (by omega)).2⟩
  · exact List.mem_filter.mpr ⟨(hbase 2 (by omega)).1,
      decide_eq_true_eq.mpr (hbase 2 (by omega)).2⟩

/-- The cyclic source `rsFair` is fair on `"ATG"`. -/
theorem fairDraws_rsFair : FairDraws "ATG".data rsFair.draws := by
  intro d hd N
  have hmem := validDraw_ATG_mem hd
  rcases List.mem_iff_getElem.mp hmem with ⟨idx, hidx, hget⟩
  have hlen : drawsATG.length = 27 := rfl
  have hidx27 : idx < 27 := hlen ▸ hidx
  refine ⟨idx + 27 * (N + 1), by omega, ?_⟩
  show drawsATG.getD ((idx + 27 * (N + 1)) % drawsATG.length) ⟨[], []⟩ = d
  rw [hlen, Nat.add_mul_mod_self_left, Nat.mod_eq_of_lt hidx27]
  rw [getD_of_lt ⟨[], []⟩ hidx]
  exact hget

/-- Claim C8 (confirmed): for a sequence over `{A,T,C,G}`, under any
fair draw stream the rejection-sampling loop of
`triple_mutations_sampled` terminates for every sample size, because
the target is clamped to `27·C(L,3)`, which is exactly the number of
distinct strings differing from the input at exactly 3 positions. -/
theorem claim_C8 :
    ∀ (seq : List Char) (rs : RandSrc),
      (∀ c ∈ seq, c ∈ BASES) → FairDraws seq rs.draws →
      (∀ n, ∃ fuel out, triple_mutations_sampled seq n rs fuel = some out) ∧
      (∃ F : Finset (List Char),
        (∀ t, t ∈ F ↔ (t.length = seq.length ∧ (diffPositions seq t).length = 3 ∧
          ∀ q, q < seq.length → t.getD q ' ' ≠ seq.getD q ' ' → t.getD q ' ' ∈ BASES)) ∧
        F.card = 27 * seq.length.choose 3) := by
  intro seq rs halpha hfair
  constructor
  · intro n
    have htarget : min n ((combinations 3 (List.range seq.length)).length * 3 ^ 3) ≤
        seq.length.choose 3 * 3 ^ 3 := by
      rw [length_combinations, List.length_range]
      exact Nat.min_le_right _ _
    obtain ⟨fuel, out, hout⟩ := tripleAux_terminates halpha hfair htarget [] 0 List.nodup_nil
    refine ⟨fuel, out, ?_⟩
    simp only [triple_mutations_sampled]
    exact hout
  · refine ⟨(replace_k_mutations seq 3).toFinset, ?_, ?_⟩
    · intro t
      rw [List.mem_toFinset, mem_replace_k_iff]
      exact Iff.rfl
    · rw [List.toFinset_card_of_nodup (nodup_replace_k seq 3), length_replace_k seq 3 halpha]
      have h27 : (3 : Nat) ^ 3 = 27 := by norm_num
      rw [h27, Nat.mul_comm]

/-- Witness for C8: the fair cyclic source on `"ATG"` terminates for
sample size 5. -/
theorem claim_C8_witness :
    (∀ c ∈ "ATG".data, c ∈ BASES) ∧
    (∃ fuel out, triple_mutations_sampled "ATG".data 5 rsFair fuel = some out) :=
  ⟨by decide, (claim_C8 "ATG".data rsFair (by decide) fairDraws_rsFair).1 5⟩
